import Mathlib

/-!
# A shallow embedding of the `Rust-Heaps` Fibonacci heap

This file embeds the Fibonacci heap of `src/src/fibonacci_heap.rs` together
with its node component `src/src/fib_node.rs` and proves properties of the
embedded operations.

Modelling conventions:

* Nodes live in an arena (an association list `Nat × FibNodeData`); a `Nat`
  id plays the role of the raw `*mut _FibNode` pointer.  The Rust code never
  frees a node (`FibNode::new` leaks the transmuted `Box`, and `into_inner`
  only clones), so the arena never shrinks; ids of removed elements simply
  become garbage that is still dereferencable, exactly as in the source.
* Keys and values are specialised to `Int` (the source is generic over
  `K : Ord + Sub` and `V : Eq + Hash`; the tests use unsigned integers).
* A Rust `panic!` / failed `assert!` / `HashMap` index panic / `Vec` index
  panic is modelled as `Except.error` with a `Panic` value.  Unbounded
  recursion (`cascading_cut`, `insert_by_rank`) is given fuel; running out
  of fuel corresponds to the stack overflow the Rust program would hit on a
  cyclic parent chain and is reported as `Panic.fuelExhausted`.
* `DList::rotate_backward` moves the front element to the back,
  `rotate_forward` moves the back element to the front, `DList::merge f`
  interleaves two lists keeping the left element while `f left right`
  holds; all three are modelled directly below.
* `(self.total as f64).log2() as uint` truncates the double-precision
  logarithm; for the integer inputs that can occur this equals
  `Nat.log2` (the logarithm of a non-power-of-two is irrational and is
  nowhere near an integer for representable sizes), which is what `log2F`
  computes by fueled halving.
-/

namespace RustHeaps

/-- Outcomes of a Rust panic (a fatal, non-recoverable abort): `panic!` with a
message, a failed `assert!`, a missing-key `HashMap` index, a `Vec` index out
of bounds, and exhaustion of the recursion fuel (the stack). -/
inductive Panic where
  | panicMsg (msg : String)
  | assertFailed
  | missingKey
  | indexOutOfBounds
  | fuelExhausted
deriving DecidableEq, Repr

/-- The fields of `_FibNode<K, V>`: parent back-pointer, ordered child list
(front of the `VecDeque` is the list head), mark bit, key and value.  The
rank of a node is the length of `children` (it is derived, not stored). -/
structure FibNodeData where
  parent : Option Nat
  children : List Nat
  marked : Bool
  key : Int
  value : Int
deriving DecidableEq, Repr

/-- The state of a `FibHeap<K, V>`: the node arena (the program's reachable
allocations), the allocation counter (fresh raw addresses), the value-keyed
`hash_table`, the root `DList` (head = front) and the element count
`total : int`. -/
structure FibHeap where
  arena : List (Nat × FibNodeData)
  nextId : Nat
  hashTable : List (Int × Nat)
  roots : List Nat
  total : Int
deriving DecidableEq, Repr

/-- Association-list lookup (the arena read through a node pointer). -/
def alook : List (Nat × FibNodeData) → Nat → Option FibNodeData
  | [], _ => none
  | (i, d) :: rest, j => if i = j then some d else alook rest j

/-- Update the node stored at an id, leaving the arena unchanged when the id
is absent (a dereference of a pointer that was never handed out cannot occur
in the source). -/
def amod : List (Nat × FibNodeData) → Nat → (FibNodeData → FibNodeData) →
    List (Nat × FibNodeData)
  | [], _, _ => []
  | (i, d) :: rest, j, f =>
    if i = j then (i, f d) :: rest else (i, d) :: amod rest j f

/-- `HashMap::get`. -/
def hashLook : List (Int × Nat) → Int → Option Nat
  | [], _ => none
  | (w, j) :: rest, v => if w = v then some j else hashLook rest v

/-- `HashMap::insert`: replaces the binding of an existing key. -/
def hashPut : List (Int × Nat) → Int → Nat → List (Int × Nat)
  | [], v, i => [(v, i)]
  | (w, j) :: rest, v, i =>
    if w = v then (v, i) :: rest else (w, j) :: hashPut rest v i

/-- `HashMap::remove`. -/
def hashDel : List (Int × Nat) → Int → List (Int × Nat)
  | [], _ => []
  | (w, j) :: rest, v => if w = v then rest else (w, j) :: hashDel rest v

/-- Read a node's key through its pointer (`get_key`). -/
def keyD (h : FibHeap) (i : Nat) : Int :=
  ((alook h.arena i).map (fun n => n.key)).getD 0

/-- Read a node's value (`get_value` / `value()`). -/
def valueD (h : FibHeap) (i : Nat) : Int :=
  ((alook h.arena i).map (fun n => n.value)).getD 0

/-- Read a node's child list. -/
def childrenD (h : FibHeap) (i : Nat) : List Nat :=
  ((alook h.arena i).map (fun n => n.children)).getD []

/-- `FibNode::rank`: the length of the child list. -/
def rankD (h : FibHeap) (i : Nat) : Nat := (childrenD h i).length

/-- `FibNode::get_parent`. -/
def parentD (h : FibHeap) (i : Nat) : Option Nat :=
  ((alook h.arena i).map (fun n => n.parent)).getD none

/-- `FibNode::get_marked`. -/
def markedD (h : FibHeap) (i : Nat) : Bool :=
  ((alook h.arena i).map (fun n => n.marked)).getD false

/-- `FibNode::set_parent`. -/
def setParent (h : FibHeap) (i : Nat) (p : Option Nat) : FibHeap :=
  { h with arena := amod h.arena i (fun n => { n with parent := p }) }

/-- `FibNode::set_marked`. -/
def setMarked (h : FibHeap) (i : Nat) (m : Bool) : FibHeap :=
  { h with arena := amod h.arena i (fun n => { n with marked := m }) }

/-- `FibNode::set_key`. -/
def setKey (h : FibHeap) (i : Nat) (k : Int) : FibHeap :=
  { h with arena := amod h.arena i (fun n => { n with key := k }) }

/-- Replace a node's child list. -/
def setChildren (h : FibHeap) (i : Nat) (cs : List Nat) : FibHeap :=
  { h with arena := amod h.arena i (fun n => { n with children := cs }) }

/-- `_FibNode::add_child`: `children.push_back(child)`. -/
def addChild (h : FibHeap) (i c : Nat) : FibHeap :=
  { h with arena := amod h.arena i (fun n => { n with children := n.children ++ [c] }) }

/-- `FibHeap::new`, parameterised by the allocation counter so that two
heaps built side by side (for `merge`) allocate disjoint node addresses. -/
def FibHeap.new (c : Nat) : FibHeap :=
  { arena := [], nextId := c, hashTable := [], roots := [], total := 0 }

/-- `FibHeap::find_min`: reads the front root; `panic!("Fibonacci heap is
empty")` when the root list is empty. -/
def findMin (h : FibHeap) : Except Panic (Int × Int) :=
  match h.roots with
  | [] => .error (.panicMsg "Fibonacci heap is empty")
  | i :: _ => .ok (keyD h i, valueD h i)

/-- `FibHeap::insert_root`: push the new root at the back when the current
front is strictly smaller, otherwise push it at the front. -/
def insertRoot (h : FibHeap) (root : Nat) : FibHeap :=
  match h.roots with
  | [] => { h with roots := [root] }
  | f :: _ =>
    if keyD h f < keyD h root then { h with roots := h.roots ++ [root] }
    else { h with roots := root :: h.roots }

/-- `FibHeap::insert`: allocate the node, insert it as a root, record the
value-to-node binding, bump `total`. -/
def FibHeap.insert (h : FibHeap) (k v : Int) : FibHeap :=
  let i := h.nextId
  let h1 : FibHeap :=
    { h with arena := (i, ⟨none, [], false, k, v⟩) :: h.arena, nextId := i + 1 }
  let h2 := insertRoot h1 i
  { h2 with hashTable := hashPut h2.hashTable v i, total := h2.total + 1 }

/-- The loop body of `FibHeap::sort_roots`: `m` is the current `min_node`,
the list is the remaining root `DList`; rotations follow the `DList`
semantics described in the header. -/
def sortLoop (h : FibHeap) : Nat → List Nat → Nat → List Nat
  | 0, rs, m => m :: rs
  | _ + 1, [], m => [m]
  | k + 1, f :: rest, m =>
    if keyD h f < keyD h m then sortLoop h k (rest ++ [m]) f
    else sortLoop h k (rest ++ [f]) m

/-- `FibHeap::sort_roots`. -/
def sortRoots (h : FibHeap) : FibHeap :=
  match h.roots with
  | [] => h
  | m :: rest => { h with roots := sortLoop h rest.length rest m }

/-- The rotating scan of `_FibNode::remove_child`: the comparison
`*children.front().unwrap() == child` is `PartialEq` on `_FibNode`, which
compares the KEYS (`self.key.eq(&other.key)`), so the scan stops at the
first child whose key equals `k`. -/
def removeChildLoop (h : FibHeap) (k : Int) : Nat → List Nat → Option (Nat × List Nat)
  | 0, _ => none
  | _ + 1, [] => none
  | n + 1, f :: rest =>
    if keyD h f = k then some (f, rest) else removeChildLoop h k n (rest ++ [f])

/-- `_FibNode::remove_child`: removes the first child whose key equals the
argument's key and returns it, or `Err` after a full rotation. -/
def removeChild (h : FibHeap) (p c : Nat) : Except String (Nat × FibHeap) :=
  match removeChildLoop h (keyD h c) (childrenD h p).length (childrenD h p) with
  | some (rid, cs2) => .ok (rid, setChildren h p cs2)
  | none => .error "Could not find child in children"

/-- `FibHeap::cut`: `assert!(parent.remove_child(child).is_ok())`, then clear
the child's parent pointer and mark. -/
def cut (h : FibHeap) (p c : Nat) : Except Panic FibHeap :=
  match removeChild h p c with
  | .error _ => .error .assertFailed
  | .ok (_, h1) => .ok (setMarked (setParent h1 c none) c false)

/-- `FibHeap::cascading_cut` (fuel models the recursion stack): if the node
has a parent, a marked node is cut from it, pushed onto the root list and
the procedure recurses on the parent; an unmarked node is marked. -/
def cascadingCut (h : FibHeap) (node : Nat) : Nat → Except Panic FibHeap
  | 0 => .error .fuelExhausted
  | fuel + 1 =>
    match parentD h node with
    | none => .ok h
    | some p =>
      if markedD h node then
        match cut h p node with
        | .error e => .error e
        | .ok h1 => cascadingCut (insertRoot h1 node) p fuel
      else .ok (setMarked h node true)

/-- Fuel for `cascading_cut`: the parent chain of a well-formed forest is no
longer than the number of allocated nodes. -/
def ccFuel (h : FibHeap) : Nat := h.arena.length + 1

/-- `FibHeap::decreased_node`. -/
def decreasedNode (h : FibHeap) (node : Nat) : Except Panic FibHeap :=
  match parentD h node with
  | some p =>
    if keyD h node < keyD h p then
      match cut h p node with
      | .error e => .error e
      | .ok h1 => cascadingCut (insertRoot h1 node) p (ccFuel h)
    else .ok h
  | none => .ok (sortRoots h)

/-- `FibHeap::decrease_key`: `self.hash_table[value]` panics when the value
is unbound; otherwise subtract the delta from the key and fix up. -/
def decreaseKey (h : FibHeap) (v delta : Int) : Except Panic FibHeap :=
  match hashLook h.hashTable v with
  | none => .error .missingKey
  | some i => decreasedNode (setKey h i (keyD h i - delta)) i

/-- Fueled floor of the base-2 logarithm; `log2F c n = Nat.log2 n` whenever
`n ≤ c`. -/
def log2F : Nat → Nat → Nat
  | 0, _ => 0
  | c + 1, n => if 2 ≤ n then log2F c (n / 2) + 1 else 0

/-- The size of the by-rank vector allocated by `FibHeap::consolidate`:
`(self.total as f64).log2() as uint + 1`, evaluated before `total` is
decremented. -/
def consolidateVecLen (t : Int) : Nat := log2F t.toNat t.toNat + 1

/-- The non-recursive part of `FibHeap::link_and_insert`: the child's
parent pointer is set to the root, its mark is cleared, and it is appended
to the root's children. -/
def linkPrep (h : FibHeap) (root child : Nat) : FibHeap :=
  addChild (setMarked (setParent h child (some root)) child false) root child

/-- `FibHeap::insert_by_rank` together with the tail of `link_and_insert`:
read the slot at the node's rank (`rank_vec[rank]` panics when the rank is
out of bounds); an empty slot takes the node, an occupied one is cleared
(`push(None)` + `swap_remove`) and the two roots are linked, the smaller key
becoming the parent, after which the merged root is re-inserted. -/
def insertByRank (vec : List (Option Nat)) (h : FibHeap) (node : Nat) :
    Nat → Except Panic (List (Option Nat) × FibHeap)
  | 0 => .error .fuelExhausted
  | fuel + 1 =>
    let rank := rankD h node
    if hr : rank < vec.length then
      match vec.get ⟨rank, hr⟩ with
      | none => .ok (vec.set rank (some node), h)
      | some other =>
        let vec2 := vec.set rank none
        if keyD h node < keyD h other then
          insertByRank vec2 (linkPrep h node other) node fuel
        else
          insertByRank vec2 (linkPrep h other node) other fuel
    else .error .indexOutOfBounds

/-- The drain loop of `FibHeap::consolidate`: pop roots from the front and
feed each to `insert_by_rank`. -/
def drainRoots (vec : List (Option Nat)) (h : FibHeap) :
    List Nat → Except Panic (List (Option Nat) × FibHeap)
  | [] => .ok (vec, h)
  | r :: rest =>
    match insertByRank vec h r (vec.length + 1) with
    | .error e => .error e
    | .ok (vec2, h2) => drainRoots vec2 h2 rest

/-- The final loop of `FibHeap::consolidate`: every occupied slot becomes a
root again. -/
def reinsertSlots (h : FibHeap) : List (Option Nat) → FibHeap
  | [] => h
  | none :: rest => reinsertSlots h rest
  | some i :: rest => reinsertSlots (insertRoot h i) rest

/-- `FibHeap::consolidate`. -/
def consolidate (h : FibHeap) : Except Panic FibHeap :=
  let vec : List (Option Nat) := List.replicate (consolidateVecLen h.total) none
  match drainRoots vec { h with roots := [] } h.roots with
  | .error e => .error e
  | .ok (vec2, h2) => .ok (reinsertSlots h2 vec2)

/-- The promotion loop of `FibHeap::delete_min`: each drained child's parent
pointer is cleared and the child is inserted as a root. -/
def promoteChildren (h : FibHeap) : List Nat → FibHeap
  | [] => h
  | c :: cs => promoteChildren (insertRoot (setParent h c none) c) cs

/-- `FibHeap::delete_min`: pop the front root (panic when empty), drain and
promote its children, consolidate, decrement `total`, drop the value's hash
binding, and return the key/value after `into_inner`'s assertions that the
node is parentless and childless. -/
def deleteMin (h : FibHeap) : Except Panic ((Int × Int) × FibHeap) :=
  match h.roots with
  | [] => .error (.panicMsg "Fibonacci heap is empty")
  | m :: rest =>
    let cs := childrenD h m
    let h1 := setChildren { h with roots := rest } m []
    let h2 := promoteChildren h1 cs
    match consolidate h2 with
    | .error e => .error e
    | .ok h3 =>
      let h4 : FibHeap := { h3 with total := h3.total - 1 }
      let h5 : FibHeap := { h4 with hashTable := hashDel h4.hashTable (valueD h4 m) }
      if (parentD h5 m).isNone ∧ childrenD h5 m = [] then
        .ok ((keyD h5 m, valueD h5 m), h5)
      else .error .assertFailed

/-- `HeapDelete::delete`: decrease the value's key by itself (driving it to
zero) and `delete_min`. -/
def FibHeap.delete (h : FibHeap) (v : Int) : Except Panic ((Int × Int) × FibHeap) :=
  match hashLook h.hashTable v with
  | none => .error .missingKey
  | some i =>
    match decreaseKey h v (keyD h i) with
    | .error e => .error e
    | .ok h1 => deleteMin h1

/-- `DList::merge` with comparator `|s, o| s < o` (key comparison): keep the
left element while its key is strictly smaller, otherwise take the right
one; fueled for kernel reduction (the fuel used is the sum of lengths,
which always suffices). -/
def dlistMergeF (h : FibHeap) : Nat → List Nat → List Nat → List Nat
  | 0, xs, ys => xs ++ ys
  | _ + 1, [], ys => ys
  | _ + 1, x :: xs, [] => x :: xs
  | fuel + 1, x :: xs, y :: ys =>
    if keyD h x < keyD h y then x :: dlistMergeF h fuel xs (y :: ys)
    else y :: dlistMergeF h fuel (x :: xs) ys

/-- The hash-table loop of `HeapExt::merge`: every binding of the consumed
heap is inserted into the surviving one. -/
def hashMergeInto (mine : List (Int × Nat)) : List (Int × Nat) → List (Int × Nat)
  | [] => mine
  | (v, i) :: rest => hashMergeInto (hashPut mine v i) rest

/-- `HeapExt::merge`: splice the two root lists with `DList::merge`, copy
the hash bindings over, and add the totals.  No consolidation happens. -/
def FibHeap.merge (h other : FibHeap) : FibHeap :=
  let merged : FibHeap :=
    { arena := h.arena ++ other.arena
      nextId := other.nextId
      hashTable := hashMergeInto h.hashTable other.hashTable
      roots := []
      total := h.total + other.total }
  { merged with
      roots := dlistMergeF merged (h.roots.length + other.roots.length) h.roots other.roots }

/-- The public operations: insert, delete-min, decrease-key, delete, and
merge with a heap built by a sub-program (which allocates from the shared
counter, as two Rust heaps draw from the same allocator). -/
inductive Op where
  | ins (k v : Int)
  | delMin
  | decKey (v delta : Int)
  | del (v : Int)
  | mrg (sub : List Op)

/-- Run a list of operations from a given heap; fuel bounds the total
number of interpreter steps (any fixed program runs within a large enough
fuel). -/
def runFrom : Nat → FibHeap → List Op → Except Panic FibHeap
  | 0, _, _ => .error .fuelExhausted
  | _ + 1, h, [] => .ok h
  | fuel + 1, h, .ins k v :: rest => runFrom fuel (h.insert k v) rest
  | fuel + 1, h, .delMin :: rest =>
    match deleteMin h with
    | .ok (_, h2) => runFrom fuel h2 rest
    | .error e => .error e
  | fuel + 1, h, .decKey v d :: rest =>
    match decreaseKey h v d with
    | .ok h2 => runFrom fuel h2 rest
    | .error e => .error e
  | fuel + 1, h, .del v :: rest =>
    match h.delete v with
    | .ok (_, h2) => runFrom fuel h2 rest
    | .error e => .error e
  | fuel + 1, h, .mrg sub :: rest =>
    match runFrom fuel (FibHeap.new h.nextId) sub with
    | .ok o => runFrom fuel (h.merge o) rest
    | .error e => .error e

/-- Like `runFrom`, additionally collecting every key/value pair returned
by `delete_min` and `delete` (the removed, hence no longer live, elements),
in order. -/
def runCollect : Nat → FibHeap → List (Int × Int) → List Op →
    Except Panic (FibHeap × List (Int × Int))
  | 0, _, _, _ => .error .fuelExhausted
  | _ + 1, h, acc, [] => .ok (h, acc)
  | fuel + 1, h, acc, .ins k v :: rest => runCollect fuel (h.insert k v) acc rest
  | fuel + 1, h, acc, .delMin :: rest =>
    match deleteMin h with
    | .ok (kv, h2) => runCollect fuel h2 (acc ++ [kv]) rest
    | .error e => .error e
  | fuel + 1, h, acc, .decKey v d :: rest =>
    match decreaseKey h v d with
    | .ok h2 => runCollect fuel h2 acc rest
    | .error e => .error e
  | fuel + 1, h, acc, .del v :: rest =>
    match h.delete v with
    | .ok (kv, h2) => runCollect fuel h2 (acc ++ [kv]) rest
    | .error e => .error e
  | fuel + 1, h, acc, .mrg sub :: rest =>
    match runCollect fuel (FibHeap.new h.nextId) [] sub with
    | .ok (o, acc2) => runCollect fuel (h.merge o) (acc ++ acc2) rest
    | .error e => .error e

end RustHeaps

deriving instance DecidableEq for Except

namespace RustHeaps

/-! ## Basic lemmas about the arena and the auxiliary loops -/

theorem alook_cons (i : Nat) (d : FibNodeData) (rest : List (Nat × FibNodeData))
    (x : Nat) : alook ((i, d) :: rest) x = if i = x then some d else alook rest x := rfl

theorem alook_amod (a : List (Nat × FibNodeData)) (j : Nat)
    (f : FibNodeData → FibNodeData) (x : Nat) :
    alook (amod a j f) x = if x = j then (alook a j).map f else alook a x := by
  induction a with
  | nil => simp [amod, alook]
  | cons pr rest ih =>
    obtain ⟨i, d⟩ := pr
    by_cases hij : i = j
    · subst hij
      by_cases hx : i = x
      · subst hx
        simp [amod, alook]
      · have hxi : ¬ x = i := fun hh => hx hh.symm
        simp [amod, alook, hx, hxi]
    · by_cases hx : i = x
      · subst hx
        simp [amod, alook, hij]
      · simp [amod, alook, hij, hx, ih]

theorem alook_append (a b : List (Nat × FibNodeData)) (x : Nat) :
    alook (a ++ b) x = match alook a x with
      | some d => some d
      | none => alook b x := by
  induction a with
  | nil => simp [alook]
  | cons pr rest ih =>
    obtain ⟨i, d⟩ := pr
    by_cases hx : i = x <;> simp [alook, hx, ih]

theorem hashLook_mem {tbl : List (Int × Nat)} {v : Int} {j : Nat}
    (hl : hashLook tbl v = some j) : (v, j) ∈ tbl := by
  induction tbl with
  | nil => simp [hashLook] at hl
  | cons pr rest ih =>
    obtain ⟨w, i⟩ := pr
    by_cases hw : w = v
    · subst hw
      simp [hashLook] at hl
      simp [hl]
    · simp [hashLook, hw] at hl
      simp [ih hl]

theorem mem_hashPut {tbl : List (Int × Nat)} {v : Int} {i : Nat} {pr : Int × Nat}
    (hm : pr ∈ hashPut tbl v i) : pr ∈ tbl ∨ pr = (v, i) := by
  induction tbl with
  | nil => simp [hashPut] at hm; simp [hm]
  | cons q rest ih =>
    obtain ⟨w, j⟩ := q
    by_cases hw : w = v
    · subst hw
      simp [hashPut] at hm
      rcases hm with hm | hm
      · right; simp [hm]
      · left; simp [hm]
    · simp [hashPut, hw] at hm
      rcases hm with hm | hm
      · left; simp [hm]
      · rcases ih hm with hh | hh
        · left; simp [hh]
        · right; exact hh

theorem mem_hashDel {tbl : List (Int × Nat)} {v : Int} {pr : Int × Nat}
    (hm : pr ∈ hashDel tbl v) : pr ∈ tbl := by
  induction tbl with
  | nil => simp [hashDel] at hm
  | cons q rest ih =>
    obtain ⟨w, j⟩ := q
    by_cases hw : w = v
    · subst hw
      simp [hashDel] at hm
      simp [hm]
    · simp [hashDel, hw] at hm
      rcases hm with hm | hm
      · simp [hm]
      · simp [ih hm]

theorem mem_hashMergeInto {mine other : List (Int × Nat)} {pr : Int × Nat}
    (hm : pr ∈ hashMergeInto mine other) : pr ∈ mine ∨ pr ∈ other := by
  induction other generalizing mine with
  | nil => simp [hashMergeInto] at hm; simp [hm]
  | cons q rest ih =>
    obtain ⟨v, i⟩ := q
    simp only [hashMergeInto] at hm
    rcases ih hm with hh | hh
    · rcases mem_hashPut hh with h2 | h2
      · simp [h2]
      · right; simp [h2]
    · right; simp [hh]

/-! Frame lemmas: each node mutator changes only its own field of its own
node; the heap's other components are untouched. -/

theorem setParent_roots (h : FibHeap) (i : Nat) (p : Option Nat) :
    (setParent h i p).roots = h.roots := rfl

theorem setParent_nextId (h : FibHeap) (i : Nat) (p : Option Nat) :
    (setParent h i p).nextId = h.nextId := rfl

theorem setMarked_roots (h : FibHeap) (i : Nat) (m : Bool) :
    (setMarked h i m).roots = h.roots := rfl

theorem setMarked_nextId (h : FibHeap) (i : Nat) (m : Bool) :
    (setMarked h i m).nextId = h.nextId := rfl

theorem keyD_setParent (h : FibHeap) (i : Nat) (p : Option Nat) (x : Nat) :
    keyD (setParent h i p) x = keyD h x := by
  simp only [keyD, setParent, alook_amod]
  by_cases hx : x = i
  · subst hx
    cases alook h.arena x <;> simp
  · simp [hx]

theorem keyD_setMarked (h : FibHeap) (i : Nat) (m : Bool) (x : Nat) :
    keyD (setMarked h i m) x = keyD h x := by
  simp only [keyD, setMarked, alook_amod]
  by_cases hx : x = i
  · subst hx
    cases alook h.arena x <;> simp
  · simp [hx]

theorem keyD_setChildren (h : FibHeap) (i : Nat) (cs : List Nat) (x : Nat) :
    keyD (setChildren h i cs) x = keyD h x := by
  simp only [keyD, setChildren, alook_amod]
  by_cases hx : x = i
  · subst hx
    cases alook h.arena x <;> simp
  · simp [hx]

theorem keyD_addChild (h : FibHeap) (i c : Nat) (x : Nat) :
    keyD (addChild h i c) x = keyD h x := by
  simp only [keyD, addChild, alook_amod]
  by_cases hx : x = i
  · subst hx
    cases alook h.arena x <;> simp
  · simp [hx]

theorem keyD_setKey_ne (h : FibHeap) {x i : Nat} (hx : x ≠ i) (k : Int) :
    keyD (setKey h i k) x = keyD h x := by
  simp [keyD, setKey, alook_amod, hx]

theorem keyD_setKey_present (h : FibHeap) {i : Nat} {n : FibNodeData}
    (hn : alook h.arena i = some n) (k : Int) : keyD (setKey h i k) i = k := by
  simp [keyD, setKey, alook_amod, hn]

theorem parentD_setKey (h : FibHeap) (i : Nat) (k : Int) (x : Nat) :
    parentD (setKey h i k) x = parentD h x := by
  simp only [parentD, setKey, alook_amod]
  by_cases hx : x = i
  · subst hx
    cases alook h.arena x <;> simp
  · simp [hx]

theorem parentD_setMarked (h : FibHeap) (i : Nat) (m : Bool) (x : Nat) :
    parentD (setMarked h i m) x = parentD h x := by
  simp only [parentD, setMarked, alook_amod]
  by_cases hx : x = i
  · subst hx
    cases alook h.arena x <;> simp
  · simp [hx]

theorem parentD_setChildren (h : FibHeap) (i : Nat) (cs : List Nat) (x : Nat) :
    parentD (setChildren h i cs) x = parentD h x := by
  simp only [parentD, setChildren, alook_amod]
  by_cases hx : x = i
  · subst hx
    cases alook h.arena x <;> simp
  · simp [hx]

theorem parentD_addChild (h : FibHeap) (i c : Nat) (x : Nat) :
    parentD (addChild h i c) x = parentD h x := by
  simp only [parentD, addChild, alook_amod]
  by_cases hx : x = i
  · subst hx
    cases alook h.arena x <;> simp
  · simp [hx]

theorem parentD_setParent_ne (h : FibHeap) {x i : Nat} (hx : x ≠ i) (p : Option Nat) :
    parentD (setParent h i p) x = parentD h x := by
  simp [parentD, setParent, alook_amod, hx]

theorem parentD_setParent_present (h : FibHeap) {i : Nat} {n : FibNodeData}
    (hn : alook h.arena i = some n) (p : Option Nat) :
    parentD (setParent h i p) i = p := by
  simp [parentD, setParent, alook_amod, hn]

theorem markedD_setKey (h : FibHeap) (i : Nat) (k : Int) (x : Nat) :
    markedD (setKey h i k) x = markedD h x := by
  simp only [markedD, setKey, alook_amod]
  by_cases hx : x = i
  · subst hx
    cases alook h.arena x <;> simp
  · simp [hx]

theorem markedD_setParent (h : FibHeap) (i : Nat) (p : Option Nat) (x : Nat) :
    markedD (setParent h i p) x = markedD h x := by
  simp only [markedD, setParent, alook_amod]
  by_cases hx : x = i
  · subst hx
    cases alook h.arena x <;> simp
  · simp [hx]

theorem markedD_setChildren (h : FibHeap) (i : Nat) (cs : List Nat) (x : Nat) :
    markedD (setChildren h i cs) x = markedD h x := by
  simp only [markedD, setChildren, alook_amod]
  by_cases hx : x = i
  · subst hx
    cases alook h.arena x <;> simp
  · simp [hx]

theorem markedD_addChild (h : FibHeap) (i c : Nat) (x : Nat) :
    markedD (addChild h i c) x = markedD h x := by
  simp only [markedD, addChild, alook_amod]
  by_cases hx : x = i
  · subst hx
    cases alook h.arena x <;> simp
  · simp [hx]

theorem markedD_setMarked_ne (h : FibHeap) {x i : Nat} (hx : x ≠ i) (m : Bool) :
    markedD (setMarked h i m) x = markedD h x := by
  simp [markedD, setMarked, alook_amod, hx]

theorem childrenD_setKey (h : FibHeap) (i : Nat) (k : Int) (x : Nat) :
    childrenD (setKey h i k) x = childrenD h x := by
  simp only [childrenD, setKey, alook_amod]
  by_cases hx : x = i
  · subst hx
    cases alook h.arena x <;> simp
  · simp [hx]

theorem childrenD_setParent (h : FibHeap) (i : Nat) (p : Option Nat) (x : Nat) :
    childrenD (setParent h i p) x = childrenD h x := by
  simp only [childrenD, setParent, alook_amod]
  by_cases hx : x = i
  · subst hx
    cases alook h.arena x <;> simp
  · simp [hx]

theorem childrenD_setMarked (h : FibHeap) (i : Nat) (m : Bool) (x : Nat) :
    childrenD (setMarked h i m) x = childrenD h x := by
  simp only [childrenD, setMarked, alook_amod]
  by_cases hx : x = i
  · subst hx
    cases alook h.arena x <;> simp
  · simp [hx]

theorem rankD_setParent (h : FibHeap) (i : Nat) (p : Option Nat) (x : Nat) :
    rankD (setParent h i p) x = rankD h x := by
  simp [rankD, childrenD_setParent]

theorem rankD_setMarked (h : FibHeap) (i : Nat) (m : Bool) (x : Nat) :
    rankD (setMarked h i m) x = rankD h x := by
  simp [rankD, childrenD_setMarked]

theorem childrenD_addChild_ne (h : FibHeap) {x i : Nat} (hx : x ≠ i) (c : Nat) :
    childrenD (addChild h i c) x = childrenD h x := by
  simp [childrenD, addChild, alook_amod, hx]

theorem childrenD_addChild_present (h : FibHeap) {i : Nat} {n : FibNodeData}
    (hn : alook h.arena i = some n) (c : Nat) :
    childrenD (addChild h i c) i = n.children ++ [c] := by
  simp [childrenD, addChild, alook_amod, hn]

theorem insertRoot_arena (h : FibHeap) (r : Nat) : (insertRoot h r).arena = h.arena := by
  unfold insertRoot
  cases h.roots with
  | nil => rfl
  | cons f rest =>
    by_cases hk : keyD h f < keyD h r <;> simp [hk]

theorem insertRoot_nextId (h : FibHeap) (r : Nat) : (insertRoot h r).nextId = h.nextId := by
  unfold insertRoot
  cases h.roots with
  | nil => rfl
  | cons f rest =>
    by_cases hk : keyD h f < keyD h r <;> simp [hk]

theorem insertRoot_hashTable (h : FibHeap) (r : Nat) :
    (insertRoot h r).hashTable = h.hashTable := by
  unfold insertRoot
  cases h.roots with
  | nil => rfl
  | cons f rest =>
    by_cases hk : keyD h f < keyD h r <;> simp [hk]

theorem insertRoot_total (h : FibHeap) (r : Nat) : (insertRoot h r).total = h.total := by
  unfold insertRoot
  cases h.roots with
  | nil => rfl
  | cons f rest =>
    by_cases hk : keyD h f < keyD h r <;> simp [hk]

theorem insertRoot_roots_perm (h : FibHeap) (r : Nat) :
    (insertRoot h r).roots.Perm (r :: h.roots) := by
  unfold insertRoot
  cases h.roots with
  | nil => simp
  | cons f rest =>
    by_cases hk : keyD h f < keyD h r
    · simp only [hk, if_true]
      exact List.perm_append_singleton r (f :: rest)
    · simp [hk]

theorem mem_insertRoot_roots {h : FibHeap} {r x : Nat}
    (hx : x ∈ (insertRoot h r).roots) : x = r ∨ x ∈ h.roots := by
  have := (insertRoot_roots_perm h r).mem_iff.mp hx
  simpa using this

theorem sortLoop_mem (h : FibHeap) :
    ∀ (k : Nat) (rs : List Nat) (m x : Nat), x ∈ sortLoop h k rs m → x = m ∨ x ∈ rs := by
  intro k
  induction k with
  | zero =>
    intro rs m x hx
    simp [sortLoop] at hx
    rcases hx with hx | hx
    · simp [hx]
    · simp [hx]
  | succ k ih =>
    intro rs m x hx
    cases rs with
    | nil =>
      simp [sortLoop] at hx
      simp [hx]
    | cons f rest =>
      simp only [sortLoop] at hx
      by_cases hk : keyD h f < keyD h m
      · simp only [hk, if_true] at hx
        rcases ih _ _ _ hx with hx | hx
        · right; simp [hx]
        · simp at hx
          rcases hx with hx | hx
          · right; simp [hx]
          · left; exact hx
      · simp only [hk, if_false] at hx
        rcases ih _ _ _ hx with hx | hx
        · left; exact hx
        · simp at hx
          rcases hx with hx | hx
          · right; simp [hx]
          · right; simp [hx]

theorem sortRoots_eq_of_nil (h : FibHeap) (hr : h.roots = []) : sortRoots h = h := by
  unfold sortRoots
  rw [hr]

theorem sortRoots_roots_of_cons (h : FibHeap) (m : Nat) (rest : List Nat)
    (hr : h.roots = m :: rest) :
    (sortRoots h).roots = sortLoop h rest.length rest m := by
  unfold sortRoots
  rw [hr]

theorem sortRoots_arena (h : FibHeap) : (sortRoots h).arena = h.arena := by
  unfold sortRoots
  cases h.roots <;> rfl

theorem sortRoots_nextId (h : FibHeap) : (sortRoots h).nextId = h.nextId := by
  unfold sortRoots
  cases h.roots <;> rfl

theorem sortRoots_hashTable (h : FibHeap) : (sortRoots h).hashTable = h.hashTable := by
  unfold sortRoots
  cases h.roots <;> rfl

theorem mem_sortRoots_roots {h : FibHeap} {x : Nat}
    (hx : x ∈ (sortRoots h).roots) : x ∈ h.roots := by
  cases hr : h.roots with
  | nil =>
    rw [sortRoots_eq_of_nil h hr] at hx
    rw [hr] at hx
    exact hx
  | cons m rest =>
    rw [sortRoots_roots_of_cons h m rest hr] at hx
    rcases sortLoop_mem h _ _ _ _ hx with hy | hy
    · simp [hr, hy]
    · simp [hr, hy]

theorem removeChildLoop_subset (h : FibHeap) (k : Int) :
    ∀ (fuel : Nat) (cs : List Nat) (rid : Nat) (cs2 : List Nat),
      removeChildLoop h k fuel cs = some (rid, cs2) →
      (∀ x ∈ cs2, x ∈ cs) ∧ rid ∈ cs := by
  intro fuel
  induction fuel with
  | zero => intro cs rid cs2 hb; simp [removeChildLoop] at hb
  | succ n ih =>
    intro cs rid cs2 hb
    cases cs with
    | nil => simp [removeChildLoop] at hb
    | cons f rest =>
      simp only [removeChildLoop] at hb
      by_cases hk : keyD h f = k
      · simp only [hk, if_true] at hb
        injection hb with hb
        injection hb with h1 h2
        subst h1
        subst h2
        exact ⟨fun x hx => by simp [hx], by simp⟩
      · simp only [hk, if_false] at hb
        obtain ⟨hsub, hmem⟩ := ih _ _ _ hb
        constructor
        · intro x hx
          have := hsub x hx
          simp at this
          rcases this with hh | hh
          · simp [hh]
          · simp [hh]
        · have := hmem
          simp at this
          rcases this with hh | hh
          · simp [hh]
          · simp [hh]

/-! ## The pointer heap-order invariant (claim C2) -/

/-- Heap order along parent pointers: whenever a node's parent pointer is
set, the parent's key is no larger than the node's key. -/
def PtrOrder (h : FibHeap) : Prop :=
  ∀ i n, alook h.arena i = some n → ∀ p, n.parent = some p →
    ∀ np, alook h.arena p = some np → np.key ≤ n.key

/-- Executable check of heap order over every allocated node: for each
arena id, if the node has a parent that resolves in the arena, the parent's
key is no larger. -/
def heapOrderB (h : FibHeap) : Bool :=
  h.arena.all fun pr =>
    match alook h.arena pr.1 with
    | none => true
    | some n =>
      match n.parent with
      | none => true
      | some p =>
        match alook h.arena p with
        | none => true
        | some np => decide (np.key ≤ n.key)

theorem heapOrderB_of_ptrOrder {h : FibHeap} (ho : PtrOrder h) :
    heapOrderB h = true := by
  unfold heapOrderB
  rw [List.all_eq_true]
  intro pr hpr
  cases hl : alook h.arena pr.1 with
  | none => simp [hl]
  | some n =>
    cases hp : n.parent with
    | none => simp [hl, hp]
    | some p =>
      cases hnp : alook h.arena p with
      | none => simp [hl, hp, hnp]
      | some np => simp [hl, hp, hnp, ho pr.1 n hl p hp np hnp]

/-- Well-formedness carried through every operation: heap order along the
parent pointers, plus id-range bounds — every id stored anywhere (arena
keys, parent pointers, child lists, root list, hash table) lies in
`[b, nextId)` — which keep a fresh insertion from colliding and make the
two heaps of a merge allocation-disjoint. -/
structure Inv (b : Nat) (h : FibHeap) : Prop where
  ord : PtrOrder h
  bLe : b ≤ h.nextId
  ids : ∀ i n, alook h.arena i = some n → b ≤ i ∧ i < h.nextId
  par : ∀ i n, alook h.arena i = some n → ∀ p, n.parent = some p → b ≤ p ∧ p < h.nextId
  chi : ∀ i n, alook h.arena i = some n → ∀ c ∈ n.children, b ≤ c ∧ c < h.nextId
  rootsB : ∀ r ∈ h.roots, b ≤ r ∧ r < h.nextId
  hashB : ∀ pr ∈ h.hashTable, b ≤ pr.2 ∧ pr.2 < h.nextId

theorem amod_of_alook_none {a : List (Nat × FibNodeData)} {j : Nat}
    (hj : alook a j = none) (f : FibNodeData → FibNodeData) : amod a j f = a := by
  induction a with
  | nil => rfl
  | cons pr rest ih =>
    obtain ⟨i, d⟩ := pr
    by_cases hij : i = j
    · subst hij
      simp [alook] at hj
    · simp [alook, hij] at hj
      simp [amod, hij, ih hj]

theorem parentD_eq_some {h : FibHeap} {i p : Nat} (hp : parentD h i = some p) :
    ∃ n, alook h.arena i = some n ∧ n.parent = some p := by
  unfold parentD at hp
  cases hl : alook h.arena i with
  | none => rw [hl] at hp; simp at hp
  | some n =>
    rw [hl] at hp
    simp at hp
    exact ⟨n, rfl, hp⟩

/-- Master preservation lemma for a node update that keeps the key, only
ever clears or keeps the parent pointer, and keeps the children within
bounds. -/
theorem inv_amod {b : Nat} {h : FibHeap} (inv : Inv b h) (i : Nat)
    (f : FibNodeData → FibNodeData)
    (hkey : ∀ d, (f d).key = d.key)
    (hpar : ∀ d p, (f d).parent = some p → d.parent = some p)
    (hchi : ∀ d, (∀ c ∈ d.children, b ≤ c ∧ c < h.nextId) →
      ∀ c ∈ (f d).children, b ≤ c ∧ c < h.nextId) :
    Inv b { h with arena := amod h.arena i f } := by
  refine ⟨?_, inv.bLe, ?_, ?_, ?_, inv.rootsB, inv.hashB⟩
  · intro i2 n2 hl2 p hp np hnp
    simp only [alook_amod] at hl2 hnp
    by_cases hi2 : i2 = i
    · subst hi2
      simp only [if_pos rfl] at hl2
      cases hl : alook h.arena i2 with
      | none => rw [hl] at hl2; simp at hl2
      | some d =>
        rw [hl] at hl2
        simp at hl2
        subst hl2
        have hdp : d.parent = some p := hpar d p hp
        by_cases hpi : p = i2
        · subst hpi
          simp only [if_pos rfl, hl] at hnp
          simp at hnp
          subst hnp
          simp [hkey]
        · rw [if_neg hpi] at hnp
          have := inv.ord i2 d hl p hdp np hnp
          simpa [hkey] using this
    · rw [if_neg hi2] at hl2
      by_cases hpi : p = i
      · subst hpi
        rw [if_pos rfl] at hnp
        cases hl : alook h.arena p with
        | none => rw [hl] at hnp; simp at hnp
        | some d =>
          rw [hl] at hnp
          simp at hnp
          subst hnp
          have := inv.ord i2 n2 hl2 p hp d hl
          simpa [hkey] using this
      · rw [if_neg hpi] at hnp
        exact inv.ord i2 n2 hl2 p hp np hnp
  · intro i2 n2 hl2
    simp only [alook_amod] at hl2
    by_cases hi2 : i2 = i
    · subst hi2
      cases hl : alook h.arena i2 with
      | none => rw [if_pos rfl, hl] at hl2; simp at hl2
      | some d => exact inv.ids i2 d hl
    · rw [if_neg hi2] at hl2
      exact inv.ids i2 n2 hl2
  · intro i2 n2 hl2 p hp
    simp only [alook_amod] at hl2
    by_cases hi2 : i2 = i
    · subst hi2
      cases hl : alook h.arena i2 with
      | none => rw [if_pos rfl, hl] at hl2; simp at hl2
      | some d =>
        rw [if_pos rfl, hl] at hl2
        simp at hl2
        subst hl2
        exact inv.par i2 d hl p (hpar d p hp)
    · rw [if_neg hi2] at hl2
      exact inv.par i2 n2 hl2 p hp
  · intro i2 n2 hl2 c hc
    simp only [alook_amod] at hl2
    by_cases hi2 : i2 = i
    · subst hi2
      cases hl : alook h.arena i2 with
      | none => rw [if_pos rfl, hl] at hl2; simp at hl2
      | some d =>
        rw [if_pos rfl, hl] at hl2
        simp at hl2
        subst hl2
        exact hchi d (inv.chi i2 d hl) c hc
    · rw [if_neg hi2] at hl2
      exact inv.chi i2 n2 hl2 c hc

theorem inv_setMarked {b : Nat} {h : FibHeap} (inv : Inv b h) (i : Nat) (m : Bool) :
    Inv b (setMarked h i m) :=
  inv_amod inv i _ (fun _ => rfl) (fun _ _ hp => hp) (fun _ hd => hd)

theorem inv_setParent_none {b : Nat} {h : FibHeap} (inv : Inv b h) (i : Nat) :
    Inv b (setParent h i none) :=
  inv_amod inv i _ (fun _ => rfl) (fun _ _ hp => by simp at hp) (fun _ hd => hd)

theorem inv_setChildren {b : Nat} {h : FibHeap} (inv : Inv b h) (i : Nat)
    {cs : List Nat} (hcs : ∀ c ∈ cs, b ≤ c ∧ c < h.nextId) :
    Inv b (setChildren h i cs) :=
  inv_amod inv i _ (fun _ => rfl) (fun _ _ hp => hp) (fun _ _ c hc => hcs c hc)

theorem inv_addChild {b : Nat} {h : FibHeap} (inv : Inv b h) (i : Nat)
    {c : Nat} (hc : b ≤ c ∧ c < h.nextId) :
    Inv b (addChild h i c) := by
  refine inv_amod inv i _ (fun _ => rfl) (fun _ _ hp => hp) ?_
  intro d hd c2 hc2
  simp at hc2
  rcases hc2 with hc2 | hc2
  · exact hd c2 hc2
  · subst hc2
    exact hc

/-- Setting a parent pointer keeps the invariant provided the new parent's
key is no larger than the child's (exactly the guard under which
`link_and_insert` is called) and both ids are in range. -/
theorem inv_setParent_some {b : Nat} {h : FibHeap} (inv : Inv b h)
    {child root : Nat} (hr : b ≤ root ∧ root < h.nextId)
    (hk : keyD h root ≤ keyD h child) :
    Inv b (setParent h child (some root)) := by
  cases hlc : alook h.arena child with
  | none =>
    have : setParent h child (some root) = h := by
      unfold setParent
      rw [amod_of_alook_none hlc]
    rw [this]
    exact inv
  | some dc =>
    refine ⟨?_, inv.bLe, ?_, ?_, ?_, inv.rootsB, inv.hashB⟩
    · intro i2 n2 hl2 p hp np hnp
      simp only [setParent, alook_amod] at hl2 hnp
      by_cases hi2 : i2 = child
      · rw [if_pos hi2, hlc] at hl2
        simp at hl2
        rw [← hl2] at hp
        simp at hp
        by_cases hpc : root = child
        · rw [← hp, if_pos hpc, hlc] at hnp
          simp at hnp
          rw [← hl2, ← hnp]
        · rw [← hp, if_neg hpc] at hnp
          have h1 : keyD h root = np.key := by simp [keyD, hnp]
          have h2 : keyD h child = dc.key := by simp [keyD, hlc]
          rw [← hl2]
          show np.key ≤ dc.key
          rw [← h1, ← h2]
          exact hk
      · rw [if_neg hi2] at hl2
        by_cases hpc : p = child
        · rw [if_pos hpc, hlc] at hnp
          simp at hnp
          have := inv.ord i2 n2 hl2 p hp dc (by rw [hpc]; exact hlc)
          rw [← hnp]
          exact this
        · rw [if_neg hpc] at hnp
          exact inv.ord i2 n2 hl2 p hp np hnp
    · intro i2 n2 hl2
      simp only [setParent, alook_amod] at hl2
      by_cases hi2 : i2 = child
      · rw [hi2]
        exact inv.ids child dc hlc
      · rw [if_neg hi2] at hl2
        exact inv.ids i2 n2 hl2
    · intro i2 n2 hl2 p hp
      simp only [setParent, alook_amod] at hl2
      by_cases hi2 : i2 = child
      · rw [if_pos hi2, hlc] at hl2
        simp at hl2
        rw [← hl2] at hp
        simp at hp
        rw [← hp]
        exact hr
      · rw [if_neg hi2] at hl2
        exact inv.par i2 n2 hl2 p hp
    · intro i2 n2 hl2 c hc
      simp only [setParent, alook_amod] at hl2
      by_cases hi2 : i2 = child
      · rw [if_pos hi2, hlc] at hl2
        simp at hl2
        rw [← hl2] at hc
        simp at hc
        exact inv.chi child dc hlc c hc
      · rw [if_neg hi2] at hl2
        exact inv.chi i2 n2 hl2 c hc

theorem inv_linkPrep {b : Nat} {h : FibHeap} (inv : Inv b h)
    {root child : Nat} (hr : b ≤ root ∧ root < h.nextId)
    (hc : b ≤ child ∧ child < h.nextId) (hk : keyD h root ≤ keyD h child) :
    Inv b (linkPrep h root child) := by
  unfold linkPrep
  have i1 := inv_setParent_some inv hr hk
  have i2 := inv_setMarked i1 child false
  exact inv_addChild i2 root (by
    simpa [setParent_nextId, setMarked_nextId] using hc)

theorem inv_insertRoot {b : Nat} {h : FibHeap} (inv : Inv b h)
    {r : Nat} (hr : b ≤ r ∧ r < h.nextId) :
    Inv b (insertRoot h r) := by
  have harena := insertRoot_arena h r
  have hnext := insertRoot_nextId h r
  have hhash := insertRoot_hashTable h r
  refine ⟨?_, ?_, ?_, ?_, ?_, ?_, ?_⟩
  · intro i n hl p hp np hnp
    rw [harena] at hl hnp
    exact inv.ord i n hl p hp np hnp
  · rw [hnext]; exact inv.bLe
  · intro i n hl
    rw [harena] at hl
    rw [hnext]
    exact inv.ids i n hl
  · intro i n hl p hp
    rw [harena] at hl
    rw [hnext]
    exact inv.par i n hl p hp
  · intro i n hl c hc
    rw [harena] at hl
    rw [hnext]
    exact inv.chi i n hl c hc
  · intro x hx
    rw [hnext]
    rcases mem_insertRoot_roots hx with hx | hx
    · subst hx; exact hr
    · exact inv.rootsB x hx
  · intro pr hpr
    rw [hhash] at hpr
    rw [hnext]
    exact inv.hashB pr hpr

theorem inv_sortRoots {b : Nat} {h : FibHeap} (inv : Inv b h) :
    Inv b (sortRoots h) := by
  have harena := sortRoots_arena h
  have hnext := sortRoots_nextId h
  have hhash := sortRoots_hashTable h
  refine ⟨?_, ?_, ?_, ?_, ?_, ?_, ?_⟩
  · intro i n hl p hp np hnp
    rw [harena] at hl hnp
    exact inv.ord i n hl p hp np hnp
  · rw [hnext]; exact inv.bLe
  · intro i n hl
    rw [harena] at hl
    rw [hnext]
    exact inv.ids i n hl
  · intro i n hl p hp
    rw [harena] at hl
    rw [hnext]
    exact inv.par i n hl p hp
  · intro i n hl c hc
    rw [harena] at hl
    rw [hnext]
    exact inv.chi i n hl c hc
  · intro x hx
    rw [hnext]
    exact inv.rootsB x (mem_sortRoots_roots hx)
  · intro pr hpr
    rw [hhash] at hpr
    rw [hnext]
    exact inv.hashB pr hpr

/-- The normal form of a successful `cut`: the loop found a key match and
the three mutations were applied. -/
theorem cut_ok_elim {h h2 : FibHeap} {p c : Nat} (hc : cut h p c = .ok h2) :
    ∃ rid cs2,
      removeChildLoop h (keyD h c) (childrenD h p).length (childrenD h p) =
        some (rid, cs2) ∧
      h2 = setMarked (setParent (setChildren h p cs2) c none) c false := by
  simp only [cut, removeChild] at hc
  cases hb : removeChildLoop h (keyD h c) (childrenD h p).length (childrenD h p) with
  | none =>
    rw [hb] at hc
    simp at hc
  | some pr =>
    obtain ⟨rid, cs2⟩ := pr
    rw [hb] at hc
    simp at hc
    exact ⟨rid, cs2, rfl, hc.symm⟩

theorem cut_nextId {h h2 : FibHeap} {p c : Nat} (hc : cut h p c = .ok h2) :
    h2.nextId = h.nextId := by
  obtain ⟨rid, cs2, _, hh⟩ := cut_ok_elim hc
  rw [hh]
  rfl

theorem inv_cut {b : Nat} {h h2 : FibHeap} {p c : Nat} (inv : Inv b h)
    (hc : cut h p c = .ok h2) : Inv b h2 := by
  obtain ⟨rid, cs2, hb, hh⟩ := cut_ok_elim hc
  have hsub := (removeChildLoop_subset h (keyD h c) _ _ _ _ hb).1
  have hbound : ∀ x ∈ cs2, b ≤ x ∧ x < h.nextId := by
    intro x hx
    have hxc := hsub x hx
    unfold childrenD at hxc
    cases hl : alook h.arena p with
    | none => rw [hl] at hxc; simp at hxc
    | some np =>
      rw [hl] at hxc
      simp at hxc
      exact inv.chi p np hl x hxc
  have i1 := inv_setChildren inv p hbound
  have i2 := inv_setParent_none i1 c
  have i3 := inv_setMarked i2 c false
  rw [hh]
  exact i3

theorem inv_cascadingCut {b : Nat} :
    ∀ (fuel : Nat) (h : FibHeap) (node : Nat) (h2 : FibHeap), Inv b h →
      b ≤ node → node < h.nextId →
      cascadingCut h node fuel = .ok h2 → Inv b h2 := by
  intro fuel
  induction fuel with
  | zero => intro h node h2 inv hb hlt hc; simp [cascadingCut] at hc
  | succ fuel ih =>
    intro h node h2 inv hb hlt hc
    simp only [cascadingCut] at hc
    split at hc
    · simp at hc
      rw [← hc]
      exact inv
    · rename_i p hp
      obtain ⟨n, hln, hnp⟩ := parentD_eq_some hp
      have hpb := inv.par node n hln p hnp
      split at hc
      · split at hc
        · simp at hc
        · rename_i h1 hcut
          have inv1 := inv_cut inv hcut
          have hnx := cut_nextId hcut
          have inv2 : Inv b (insertRoot h1 node) :=
            inv_insertRoot inv1 (by rw [hnx]; exact ⟨hb, hlt⟩)
          exact ih (insertRoot h1 node) p h2 inv2
            hpb.1 (by rw [insertRoot_nextId, hnx]; exact hpb.2) hc
      · simp at hc
        rw [← hc]
        exact inv_setMarked inv node true

theorem amod_amod_self (a : List (Nat × FibNodeData)) (i : Nat)
    (f g : FibNodeData → FibNodeData) :
    amod (amod a i f) i g = amod a i (fun d => g (f d)) := by
  induction a with
  | nil => rfl
  | cons pr rest ih =>
    obtain ⟨j, d⟩ := pr
    by_cases hj : j = i
    · simp [amod, hj]
    · simp [amod, hj, ih]

theorem amod_amod_comm (a : List (Nat × FibNodeData)) {i j : Nat} (hij : i ≠ j)
    (f g : FibNodeData → FibNodeData) :
    amod (amod a i f) j g = amod (amod a j g) i f := by
  induction a with
  | nil => rfl
  | cons pr rest ih =>
    obtain ⟨x, d⟩ := pr
    have hji : ¬ j = i := fun hh => hij (Eq.symm hh)
    by_cases hx : x = i
    · subst hx
      simp [amod, hij, hji]
    · by_cases hx2 : x = j
      · subst hx2
        simp [amod, hx, hji]
      · simp [amod, hx, hx2, ih]

/-- Generalised master preservation lemma: the update may DECREASE the key,
provided the parent pointer survives only together with an unchanged key
(cleared pointers and parentless nodes are always fine), and new children
are either old children or in range. -/
theorem inv_amod2 {b : Nat} {h : FibHeap} (inv : Inv b h) (i : Nat)
    (f : FibNodeData → FibNodeData)
    (H : ∀ d, alook h.arena i = some d →
      ((f d).key ≤ d.key) ∧
      (∀ p, (f d).parent = some p → d.parent = some p ∧ (f d).key = d.key) ∧
      (∀ c ∈ (f d).children, c ∈ d.children ∨ (b ≤ c ∧ c < h.nextId))) :
    Inv b { h with arena := amod h.arena i f } := by
  refine ⟨?_, inv.bLe, ?_, ?_, ?_, inv.rootsB, inv.hashB⟩
  · intro i2 n2 hl2 p hp np hnp
    simp only [alook_amod] at hl2 hnp
    by_cases hi2 : i2 = i
    · rw [if_pos hi2] at hl2
      cases hl : alook h.arena i with
      | none => rw [hl] at hl2; simp at hl2
      | some d =>
        rw [hl] at hl2
        simp at hl2
        obtain ⟨hkd, hpd, _⟩ := H d hl
        rw [← hl2] at hp
        obtain ⟨hdp, hke⟩ := hpd p hp
        by_cases hpi : p = i
        · rw [if_pos hpi, hl] at hnp
          simp at hnp
          rw [← hl2, ← hnp]
        · rw [if_neg hpi] at hnp
          have := inv.ord i d hl p hdp np hnp
          rw [← hl2]
          rw [hke]
          exact this
    · rw [if_neg hi2] at hl2
      by_cases hpi : p = i
      · rw [if_pos hpi] at hnp
        cases hl : alook h.arena i with
        | none => rw [hl] at hnp; simp at hnp
        | some d =>
          rw [hl] at hnp
          simp at hnp
          obtain ⟨hkd, _, _⟩ := H d hl
          have := inv.ord i2 n2 hl2 p hp d (by rw [hpi]; exact hl)
          rw [← hnp]
          exact le_trans hkd this
      · rw [if_neg hpi] at hnp
        exact inv.ord i2 n2 hl2 p hp np hnp
  · intro i2 n2 hl2
    simp only [alook_amod] at hl2
    by_cases hi2 : i2 = i
    · rw [if_pos hi2] at hl2
      cases hl : alook h.arena i with
      | none => rw [hl] at hl2; simp at hl2
      | some d =>
        rw [hi2]
        exact inv.ids i d hl
    · rw [if_neg hi2] at hl2
      exact inv.ids i2 n2 hl2
  · intro i2 n2 hl2 p hp
    simp only [alook_amod] at hl2
    by_cases hi2 : i2 = i
    · rw [if_pos hi2] at hl2
      cases hl : alook h.arena i with
      | none => rw [hl] at hl2; simp at hl2
      | some d =>
        rw [hl] at hl2
        simp at hl2
        rw [← hl2] at hp
        obtain ⟨_, hpd, _⟩ := H d hl
        exact inv.par i d hl p (hpd p hp).1
    · rw [if_neg hi2] at hl2
      exact inv.par i2 n2 hl2 p hp
  · intro i2 n2 hl2 c hc
    simp only [alook_amod] at hl2
    by_cases hi2 : i2 = i
    · rw [if_pos hi2] at hl2
      cases hl : alook h.arena i with
      | none => rw [hl] at hl2; simp at hl2
      | some d =>
        rw [hl] at hl2
        simp at hl2
        rw [← hl2] at hc
        obtain ⟨_, _, hcd⟩ := H d hl
        rcases hcd c hc with hcc | hcc
        · exact inv.chi i d hl c hcc
        · exact hcc
    · rw [if_neg hi2] at hl2
      exact inv.chi i2 n2 hl2 c hc

/-- Replacing the roots by a list of in-range ids preserves the invariant. -/
theorem inv_set_roots {b : Nat} {h : FibHeap} (inv : Inv b h) {rs : List Nat}
    (hrs : ∀ r ∈ rs, b ≤ r ∧ r < h.nextId) : Inv b { h with roots := rs } :=
  ⟨inv.ord, inv.bLe, inv.ids, inv.par, inv.chi, hrs, inv.hashB⟩

theorem inv_set_total {b : Nat} {h : FibHeap} (inv : Inv b h) (t : Int) :
    Inv b { h with total := t } :=
  ⟨inv.ord, inv.bLe, inv.ids, inv.par, inv.chi, inv.rootsB, inv.hashB⟩

theorem inv_hashDel {b : Nat} {h : FibHeap} (inv : Inv b h) (v : Int) :
    Inv b { h with hashTable := hashDel h.hashTable v } :=
  ⟨inv.ord, inv.bLe, inv.ids, inv.par, inv.chi, inv.rootsB,
    fun pr hpr => inv.hashB pr (mem_hashDel hpr)⟩

theorem inv_new (c : Nat) : Inv c (FibHeap.new c) := by
  refine ⟨?_, le_refl c, ?_, ?_, ?_, ?_, ?_⟩ <;>
    simp [FibHeap.new, PtrOrder, alook]

/-- Transport of the invariant along componentwise equality (`total` is
irrelevant). -/
theorem inv_of_eqs {b : Nat} {h1 h2 : FibHeap} (inv : Inv b h1)
    (ha : h1.arena = h2.arena) (hn : h1.nextId = h2.nextId)
    (hr : h1.roots = h2.roots) (hh : h1.hashTable = h2.hashTable) : Inv b h2 := by
  refine ⟨?_, ?_, ?_, ?_, ?_, ?_, ?_⟩
  · intro i n hl p hp np hnp
    rw [← ha] at hl hnp
    exact inv.ord i n hl p hp np hnp
  · rw [← hn]; exact inv.bLe
  · intro i n hl
    rw [← ha] at hl
    rw [← hn]
    exact inv.ids i n hl
  · intro i n hl p hp
    rw [← ha] at hl
    rw [← hn]
    exact inv.par i n hl p hp
  · intro i n hl c hc
    rw [← ha] at hl
    rw [← hn]
    exact inv.chi i n hl c hc
  · intro r hrr
    rw [← hr] at hrr
    rw [← hn]
    exact inv.rootsB r hrr
  · intro pr hpr
    rw [← hh] at hpr
    rw [← hn]
    exact inv.hashB pr hpr

theorem inv_set_hash_total {b : Nat} {h : FibHeap} (inv : Inv b h)
    {tbl : List (Int × Nat)} (htbl : ∀ pr ∈ tbl, b ≤ pr.2 ∧ pr.2 < h.nextId)
    (t : Int) : Inv b { h with hashTable := tbl, total := t } :=
  ⟨inv.ord, inv.bLe, inv.ids, inv.par, inv.chi, inv.rootsB, htbl⟩

theorem inv_insert {b : Nat} {h : FibHeap} (inv : Inv b h) (k v : Int) :
    Inv b (h.insert k v) := by
  have inv1 : Inv b (FibHeap.mk
      ((h.nextId, ⟨none, [], false, k, v⟩) :: h.arena)
      (h.nextId + 1) h.hashTable h.roots h.total) := by
    refine ⟨?_, le_trans inv.bLe (Nat.le_succ _), ?_, ?_, ?_, ?_, ?_⟩
    · intro i n hl p hp np hnp
      simp only [alook_cons] at hl hnp
      by_cases hi : h.nextId = i
      · rw [if_pos hi] at hl
        simp at hl
        rw [← hl] at hp
        simp at hp
      · rw [if_neg hi] at hl
        by_cases hpn : h.nextId = p
        · exfalso
          have := (inv.par i n hl p hp).2
          rw [← hpn] at this
          exact lt_irrefl _ this
        · rw [if_neg hpn] at hnp
          exact inv.ord i n hl p hp np hnp
    · intro i n hl
      simp only [alook_cons] at hl
      by_cases hi : h.nextId = i
      · rw [← hi]
        exact ⟨inv.bLe, Nat.lt_succ_self _⟩
      · rw [if_neg hi] at hl
        have := inv.ids i n hl
        exact ⟨this.1, lt_trans this.2 (Nat.lt_succ_self _)⟩
    · intro i n hl p hp
      simp only [alook_cons] at hl
      by_cases hi : h.nextId = i
      · rw [if_pos hi] at hl
        simp at hl
        rw [← hl] at hp
        simp at hp
      · rw [if_neg hi] at hl
        have := inv.par i n hl p hp
        exact ⟨this.1, lt_trans this.2 (Nat.lt_succ_self _)⟩
    · intro i n hl c hc
      simp only [alook_cons] at hl
      by_cases hi : h.nextId = i
      · rw [if_pos hi] at hl
        simp at hl
        rw [← hl] at hc
        simp at hc
      · rw [if_neg hi] at hl
        have := inv.chi i n hl c hc
        exact ⟨this.1, lt_trans this.2 (Nat.lt_succ_self _)⟩
    · intro r hr
      have := inv.rootsB r hr
      exact ⟨this.1, lt_trans this.2 (Nat.lt_succ_self _)⟩
    · intro pr hpr
      have := inv.hashB pr hpr
      exact ⟨this.1, lt_trans this.2 (Nat.lt_succ_self _)⟩
  have hstep : b ≤ h.nextId ∧ h.nextId < h.nextId + 1 := ⟨inv.bLe, Nat.lt_succ_self _⟩
  have inv2 := inv_insertRoot inv1 hstep
  have hnid : (h.insert k v).nextId = h.nextId + 1 := by
    show (insertRoot (FibHeap.mk
      ((h.nextId, ⟨none, [], false, k, v⟩) :: h.arena)
      (h.nextId + 1) h.hashTable h.roots h.total) h.nextId).nextId = h.nextId + 1
    rw [insertRoot_nextId]
  refine ⟨inv2.ord, inv2.bLe, inv2.ids, inv2.par, inv2.chi, inv2.rootsB, ?_⟩
  intro pr hpr
  rw [hnid]
  rcases mem_hashPut hpr with hh | hh
  · have := inv2.hashB pr hh
    rw [insertRoot_nextId] at this
    exact this
  · rw [hh]
    exact ⟨inv.bLe, Nat.lt_succ_self _⟩

/-! Preservation of the invariant by `decrease_key` with a non-negative
delta (the spec's precondition: the new key must be no larger).  The
subtracted key may dip below the parent's key, in which case the node is
cut — the composite of the key update and the cut is what preserves the
invariant. -/

theorem inv_setKey_no_cut {b : Nat} {h : FibHeap} (inv : Inv b h) {i : Nat}
    {n : FibNodeData} (hn : alook h.arena i = some n) {k : Int} (hle : k ≤ n.key)
    {p : Nat} (hp : n.parent = some p)
    (hpk : ∀ np, p ≠ i → alook h.arena p = some np → np.key ≤ k) :
    Inv b (setKey h i k) := by
  refine ⟨?_, inv.bLe, ?_, ?_, ?_, inv.rootsB, inv.hashB⟩
  · intro i2 n2 hl2 p2 hp2 np hnp
    simp only [setKey, alook_amod] at hl2 hnp
    by_cases hi2 : i2 = i
    · rw [if_pos hi2, hn] at hl2
      simp at hl2
      rw [← hl2] at hp2
      simp at hp2
      rw [hp] at hp2
      simp at hp2
      by_cases hpi : p2 = i
      · rw [if_pos hpi, hn] at hnp
        simp at hnp
        rw [← hl2, ← hnp]
      · rw [if_neg hpi] at hnp
        rw [← hl2]
        show np.key ≤ k
        rw [← hp2] at hnp
        have hpne : p ≠ i := by rw [hp2]; exact hpi
        exact hpk np hpne hnp
    · rw [if_neg hi2] at hl2
      by_cases hpi : p2 = i
      · rw [if_pos hpi, hn] at hnp
        simp at hnp
        have := inv.ord i2 n2 hl2 p2 hp2 n (by rw [hpi]; exact hn)
        rw [← hnp]
        simp only []
        exact le_trans hle this
      · rw [if_neg hpi] at hnp
        exact inv.ord i2 n2 hl2 p2 hp2 np hnp
  · intro i2 n2 hl2
    simp only [setKey, alook_amod] at hl2
    by_cases hi2 : i2 = i
    · rw [hi2]
      exact inv.ids i n hn
    · rw [if_neg hi2] at hl2
      exact inv.ids i2 n2 hl2
  · intro i2 n2 hl2 p2 hp2
    simp only [setKey, alook_amod] at hl2
    by_cases hi2 : i2 = i
    · rw [if_pos hi2, hn] at hl2
      simp at hl2
      rw [← hl2] at hp2
      simp at hp2
      exact inv.par i n hn p2 hp2
    · rw [if_neg hi2] at hl2
      exact inv.par i2 n2 hl2 p2 hp2
  · intro i2 n2 hl2 c hc
    simp only [setKey, alook_amod] at hl2
    by_cases hi2 : i2 = i
    · rw [if_pos hi2, hn] at hl2
      simp at hl2
      rw [← hl2] at hc
      simp at hc
      exact inv.chi i n hn c hc
    · rw [if_neg hi2] at hl2
      exact inv.chi i2 n2 hl2 c hc

/-- After decreasing a node's key and cutting it from its parent, the
invariant holds again: the composite clears the node's parent pointer, so
the lowered key no longer violates heap order anywhere. -/
theorem inv_setKey_then_cut {b : Nat} {h : FibHeap} (inv : Inv b h) {i : Nat}
    {n : FibNodeData} (hn : alook h.arena i = some n) {k : Int} (hle : k ≤ n.key)
    {p : Nat} {hcx : FibHeap} (hcut : cut (setKey h i k) p i = .ok hcx) :
    Inv b hcx := by
  obtain ⟨rid, cs2, hloop, hh⟩ := cut_ok_elim hcut
  have hcs : childrenD (setKey h i k) p = childrenD h p := childrenD_setKey h i k p
  have hsub := (removeChildLoop_subset _ _ _ _ _ _ hloop).1
  have hbound : ∀ x ∈ cs2, b ≤ x ∧ x < h.nextId := by
    intro x hx
    have hxc := hsub x hx
    rw [hcs] at hxc
    unfold childrenD at hxc
    cases hl : alook h.arena p with
    | none => rw [hl] at hxc; simp at hxc
    | some np =>
      rw [hl] at hxc
      simp at hxc
      exact inv.chi p np hl x hxc
  by_cases hpi : p = i
  · -- the node was its own parent: all four updates hit the same entry
    rw [hh, hpi]
    have harena :
        (setMarked (setParent (setChildren (setKey h i k) i cs2) i none) i false).arena =
        amod h.arena i (fun d =>
          { d with key := k, children := cs2, parent := none, marked := false }) := by
      show amod (amod (amod (amod h.arena i (fun n2 => { n2 with key := k })) i
          (fun n2 => { n2 with children := cs2 })) i (fun n2 => { n2 with parent := none })) i
          (fun n2 => { n2 with marked := false }) = _
      rw [amod_amod_self, amod_amod_self, amod_amod_self]
    have hS : Inv b { h with arena := amod h.arena i (fun d =>
        { d with key := k, children := cs2, parent := none, marked := false }) } := by
      refine inv_amod2 inv i _ ?_
      intro d hd
      refine ⟨?_, ?_, ?_⟩
      · show k ≤ d.key
        rw [hd] at hn
        injection hn with hn
        rw [hn]
        exact hle
      · intro p2 hp2
        simp at hp2
      · intro c hc
        right
        exact hbound c hc
    exact inv_of_eqs hS harena.symm rfl rfl rfl
  · -- distinct entries: commute the children update outside
    rw [hh]
    have harena :
        (setMarked (setParent (setChildren (setKey h i k) p cs2) i none) i false).arena =
        amod (amod h.arena p (fun d => { d with children := cs2 })) i
          (fun d => { d with key := k, parent := none, marked := false }) := by
      show amod (amod (amod (amod h.arena i (fun n2 => { n2 with key := k })) p
          (fun n2 => { n2 with children := cs2 })) i (fun n2 => { n2 with parent := none })) i
          (fun n2 => { n2 with marked := false }) = _
      rw [amod_amod_self]
      rw [amod_amod_comm h.arena (fun hq : i = p => hpi (Eq.symm hq))]
      rw [amod_amod_self]
    have invc := inv_setChildren inv p hbound
    refine inv_of_eqs (inv_amod2 invc i
      (fun d => { d with key := k, parent := none, marked := false }) ?_)
      harena.symm rfl rfl rfl
    intro d hd
    have hip : ¬ (i = p) := fun hq => hpi (Eq.symm hq)
    have hdi : alook (setChildren h p cs2).arena i = alook h.arena i := by
      simp [setChildren, alook_amod, hip]
    rw [hdi, hn] at hd
    injection hd with hd
    refine ⟨?_, ?_, ?_⟩
    · show k ≤ d.key
      rw [← hd]
      exact hle
    · intro p2 hp2
      simp at hp2
    · intro c hc
      left
      exact hc

theorem inv_decreaseKey {b : Nat} {h h2 : FibHeap} {v delta : Int}
    (inv : Inv b h) (hd : 0 ≤ delta)
    (hok : decreaseKey h v delta = .ok h2) : Inv b h2 := by
  simp only [decreaseKey] at hok
  cases hv : hashLook h.hashTable v with
  | none => rw [hv] at hok; simp at hok
  | some i =>
    rw [hv] at hok
    simp only [] at hok
    have hib := inv.hashB (v, i) (hashLook_mem hv)
    simp only [] at hib
    cases hn : alook h.arena i with
    | none =>
      have he : setKey h i (keyD h i - delta) = h := by
        unfold setKey
        rw [amod_of_alook_none hn]
      rw [he] at hok
      have hp : parentD h i = none := by simp [parentD, hn]
      simp only [decreasedNode, hp] at hok
      simp at hok
      rw [← hok]
      exact inv_sortRoots inv
    | some n =>
      have hk1 : keyD h i = n.key := by simp [keyD, hn]
      have hle : keyD h i - delta ≤ n.key := by
        rw [hk1]
        omega
      have hlook1 : alook (setKey h i (keyD h i - delta)).arena i =
          some { n with key := keyD h i - delta } := by
        simp [setKey, alook_amod, hn]
      have hp1 : parentD (setKey h i (keyD h i - delta)) i = n.parent := by
        simp [parentD, setKey, alook_amod, hn]
      simp only [decreasedNode] at hok
      split at hok
      · -- the updated node has a parent: it may be cut
        rename_i p hpp
        have hnp : n.parent = some p := by rw [← hp1]; exact hpp
        split at hok
        · rename_i hklt
          split at hok
          · simp at hok
          · rename_i h1 hcut
            have inv1 := inv_setKey_then_cut inv hn hle hcut
            have hnx := cut_nextId hcut
            have hnx2 : h1.nextId = h.nextId := by
              rw [hnx]
              rfl
            have inv2 : Inv b (insertRoot h1 i) :=
              inv_insertRoot inv1 (by rw [hnx2]; exact hib)
            have hpbound := inv.par i n hn p hnp
            exact inv_cascadingCut _ _ _ _ inv2 hpbound.1
              (by rw [insertRoot_nextId, hnx2]; exact hpbound.2) hok
        · rename_i hkge
          simp at hok
          rw [← hok]
          by_cases hpi : p = i
          · -- node is its own parent: the cleared constraint is reflexive
            refine inv_setKey_no_cut inv hn hle hnp ?_
            intro np hne _
            exact absurd hpi hne
          · refine inv_setKey_no_cut inv hn hle hnp ?_
            intro np _ hnp2
            have hkp : keyD (setKey h i (keyD h i - delta)) p = np.key := by
              rw [keyD_setKey_ne h hpi]
              simp [keyD, hnp2]
            have hki : keyD (setKey h i (keyD h i - delta)) i = keyD h i - delta :=
              keyD_setKey_present h hn _
            rw [hki, hkp] at hkge
            omega
      · -- the updated node is a root: only the root list is re-sorted
        simp at hok
        rw [← hok]
        rename_i hpp
        have hnp : n.parent = none := by rw [← hp1]; exact hpp
        refine inv_sortRoots ?_
        show Inv b (setKey h i (keyD h i - delta))
        refine inv_amod2 inv i (fun d => { d with key := keyD h i - delta }) ?_
        intro d hdl
        rw [hn] at hdl
        injection hdl with hdl
        refine ⟨?_, ?_, ?_⟩
        · show keyD h i - delta ≤ d.key
          rw [← hdl]
          exact hle
        · intro p2 hp2
          simp only [← hdl] at hp2 ⊢
          rw [hnp] at hp2
          simp at hp2
        · intro c hc
          left
          exact hc

theorem linkPrep_nextId (h : FibHeap) (root child : Nat) :
    (linkPrep h root child).nextId = h.nextId := rfl

/-- Bounds on the ids stored in the consolidation slot vector. -/
def SlotB (b n : Nat) (vec : List (Option Nat)) : Prop :=
  ∀ o ∈ vec, ∀ x, o = some x → b ≤ x ∧ x < n

theorem slotB_set {b n : Nat} {vec : List (Option Nat)} (hs : SlotB b n vec)
    {o : Option Nat} (ho : ∀ x, o = some x → b ≤ x ∧ x < n) (k : Nat) :
    SlotB b n (vec.set k o) := by
  intro o2 ho2 x hx
  rcases List.mem_or_eq_of_mem_set ho2 with hm | hm
  · exact hs o2 hm x hx
  · rw [hm] at hx
    exact ho x hx

theorem inv_insertByRank {b : Nat} : ∀ (fuel : Nat) {vec : List (Option Nat)}
    {h : FibHeap} {node : Nat} {vec2 : List (Option Nat)} {h2 : FibHeap},
    Inv b h → b ≤ node ∧ node < h.nextId → SlotB b h.nextId vec →
    insertByRank vec h node fuel = .ok (vec2, h2) →
    Inv b h2 ∧ SlotB b h.nextId vec2 ∧ h2.nextId = h.nextId := by
  intro fuel
  induction fuel with
  | zero =>
    intro vec h node vec2 h2 inv hb hsb hrun
    simp [insertByRank] at hrun
  | succ fuel ih =>
    intro vec h node vec2 h2 inv hb hsb hrun
    simp only [insertByRank] at hrun
    split at hrun
    · split at hrun
      · simp at hrun
        obtain ⟨hv2, hh2⟩ := hrun
        rw [← hh2, ← hv2]
        refine ⟨inv, ?_, rfl⟩
        refine slotB_set hsb ?_ _
        intro x hx
        injection hx with hx
        rw [← hx]
        exact hb
      · rename_i hr other hget
        have hom : (some other) ∈ vec := by
          rw [← hget]
          exact vec.get_mem _ _
        have hob : b ≤ other ∧ other < h.nextId := hsb _ hom other rfl
        have hsb2 : SlotB b h.nextId (vec.set (rankD h node) none) :=
          slotB_set hsb (fun x hx => by simp at hx) _
        split at hrun
        · rename_i hklt
          have invL := inv_linkPrep inv hb hob (le_of_lt hklt)
          have := ih invL (by rw [linkPrep_nextId]; exact hb)
            (by rw [linkPrep_nextId]; exact hsb2) hrun
          rw [linkPrep_nextId] at this
          exact this
        · rename_i hkge
          have invL := inv_linkPrep inv hob hb (le_of_not_lt hkge)
          have := ih invL (by rw [linkPrep_nextId]; exact hob)
            (by rw [linkPrep_nextId]; exact hsb2) hrun
          rw [linkPrep_nextId] at this
          exact this
    · simp at hrun

theorem inv_drainRoots {b : Nat} : ∀ (rs : List Nat) {vec : List (Option Nat)}
    {h : FibHeap} {vec2 : List (Option Nat)} {h2 : FibHeap},
    Inv b h → (∀ r ∈ rs, b ≤ r ∧ r < h.nextId) → SlotB b h.nextId vec →
    drainRoots vec h rs = .ok (vec2, h2) →
    Inv b h2 ∧ SlotB b h.nextId vec2 ∧ h2.nextId = h.nextId := by
  intro rs
  induction rs with
  | nil =>
    intro vec h vec2 h2 inv hrs hsb hrun
    simp [drainRoots] at hrun
    rw [← hrun.1, ← hrun.2]
    exact ⟨inv, hsb, rfl⟩
  | cons r rest ih =>
    intro vec h vec2 h2 inv hrs hsb hrun
    simp only [drainRoots] at hrun
    split at hrun
    · simp at hrun
    · rename_i pr hstep
      obtain ⟨vecm, hm⟩ := pr
      have hstep2 := inv_insertByRank _ inv (hrs r (by simp)) hsb hstep
      obtain ⟨invm, hsbm, hnm⟩ := hstep2
      have := ih invm
        (fun x hx => by rw [hnm]; exact hrs x (by simp [hx]))
        (by rw [hnm]; exact hsbm) hrun
      rw [hnm] at this
      exact this

theorem inv_reinsertSlots {b : Nat} : ∀ (vec : List (Option Nat)) {h : FibHeap},
    Inv b h → SlotB b h.nextId vec → Inv b (reinsertSlots h vec) := by
  intro vec
  induction vec with
  | nil => intro h inv _; exact inv
  | cons o rest ih =>
    intro h inv hsb
    cases o with
    | none =>
      exact ih inv (fun o2 ho2 x hx => hsb o2 (by simp [ho2]) x hx)
    | some i =>
      have hib : b ≤ i ∧ i < h.nextId := hsb (some i) (by simp) i rfl
      refine ih (inv_insertRoot inv hib) ?_
      intro o2 ho2 x hx
      rw [insertRoot_nextId]
      exact hsb o2 (by simp [ho2]) x hx

theorem inv_consolidate {b : Nat} {h h2 : FibHeap} (inv : Inv b h)
    (hok : consolidate h = .ok h2) : Inv b h2 := by
  simp only [consolidate] at hok
  cases hdrain : drainRoots (List.replicate (consolidateVecLen h.total) none)
      { h with roots := [] } h.roots with
  | error e => rw [hdrain] at hok; simp at hok
  | ok pr =>
    obtain ⟨vec2, h2x⟩ := pr
    rw [hdrain] at hok
    simp at hok
    have hinit : SlotB b h.nextId (List.replicate (consolidateVecLen h.total) none) := by
      intro o ho x hx
      have := List.eq_of_mem_replicate ho
      rw [this] at hx
      simp at hx
    have invr : Inv b { h with roots := [] } := inv_set_roots inv (by simp)
    have := inv_drainRoots h.roots invr (fun r hr => inv.rootsB r hr) hinit hdrain
    obtain ⟨invm, hsbm, hnm⟩ := this
    rw [← hok]
    exact inv_reinsertSlots vec2 invm (by rw [hnm]; exact hsbm)

theorem inv_promoteChildren {b : Nat} : ∀ (cs : List Nat) {h : FibHeap},
    Inv b h → (∀ c ∈ cs, b ≤ c ∧ c < h.nextId) →
    Inv b (promoteChildren h cs) ∧ (promoteChildren h cs).nextId = h.nextId := by
  intro cs
  induction cs with
  | nil => intro h inv _; exact ⟨inv, rfl⟩
  | cons c rest ih =>
    intro h inv hcs
    have hcb := hcs c (by simp)
    have inv1 := inv_setParent_none inv c
    have inv2 := inv_insertRoot inv1 (by rw [setParent_nextId]; exact hcb)
    have := ih inv2 (fun x hx => by
      rw [insertRoot_nextId, setParent_nextId]
      exact hcs x (by simp [hx]))
    simp only [promoteChildren]
    rw [insertRoot_nextId, setParent_nextId] at this
    exact this

theorem inv_deleteMin {b : Nat} {h : FibHeap} {kv : Int × Int} {h2 : FibHeap}
    (inv : Inv b h) (hok : deleteMin h = .ok (kv, h2)) : Inv b h2 := by
  simp only [deleteMin] at hok
  split at hok
  · simp at hok
  · rename_i m rest hroots
    have hmb : b ≤ m ∧ m < h.nextId := inv.rootsB m (by rw [hroots]; simp)
    have hrest : ∀ r ∈ rest, b ≤ r ∧ r < h.nextId := by
      intro r hr
      exact inv.rootsB r (by rw [hroots]; simp [hr])
    have invp : Inv b { h with roots := rest } := inv_set_roots inv hrest
    have invc : Inv b (setChildren { h with roots := rest } m []) :=
      inv_setChildren invp m (by simp)
    have hcsbound : ∀ c ∈ childrenD h m, b ≤ c ∧ c < h.nextId := by
      intro c hc
      unfold childrenD at hc
      cases hl : alook h.arena m with
      | none => rw [hl] at hc; simp at hc
      | some nm =>
        rw [hl] at hc
        simp at hc
        exact inv.chi m nm hl c hc
    have hpro := inv_promoteChildren (childrenD h m) invc hcsbound
    split at hok
    · simp at hok
    · rename_i h3 hcons
      have inv3 := inv_consolidate hpro.1 hcons
      split at hok
      · simp at hok
        rw [← hok.2]
        exact ⟨inv3.ord, inv3.bLe, inv3.ids, inv3.par, inv3.chi, inv3.rootsB,
          fun pr hpr => inv3.hashB pr (mem_hashDel hpr)⟩
      · simp at hok

theorem inv_delete {b : Nat} {h : FibHeap} {v : Int} {kv : Int × Int} {h2 : FibHeap}
    (inv : Inv b h) (hkey : ∀ i, hashLook h.hashTable v = some i → 0 ≤ keyD h i)
    (hok : h.delete v = .ok (kv, h2)) : Inv b h2 := by
  simp only [FibHeap.delete] at hok
  split at hok
  · simp at hok
  · rename_i i hv
    split at hok
    · simp at hok
    · rename_i h1 hdec
      exact inv_deleteMin (inv_decreaseKey inv (hkey i hv) hdec) hok

theorem mem_dlistMergeF {m : FibHeap} : ∀ (fuel : Nat) (xs ys : List Nat) {x : Nat},
    x ∈ dlistMergeF m fuel xs ys → x ∈ xs ∨ x ∈ ys := by
  intro fuel
  induction fuel with
  | zero =>
    intro xs ys x hx
    simp only [dlistMergeF] at hx
    exact List.mem_append.mp hx
  | succ fuel ih =>
    intro xs ys x hx
    cases xs with
    | nil =>
      simp only [dlistMergeF] at hx
      exact Or.inr hx
    | cons a as =>
      cases ys with
      | nil =>
        simp only [dlistMergeF] at hx
        exact Or.inl hx
      | cons c cs =>
        simp only [dlistMergeF] at hx
        split at hx
        · simp at hx
          rcases hx with hx | hx
          · exact Or.inl (by simp [hx])
          · rcases ih _ _ hx with hy | hy
            · exact Or.inl (by simp [hy])
            · exact Or.inr hy
        · simp at hx
          rcases hx with hx | hx
          · exact Or.inr (by simp [hx])
          · rcases ih _ _ hx with hy | hy
            · exact Or.inl hy
            · exact Or.inr (by simp [hy])

theorem inv_merge {b : Nat} {h o : FibHeap} (invh : Inv b h)
    (invo : Inv h.nextId o) : Inv b (h.merge o) := by
  have hleft : ∀ i (d : FibNodeData), alook h.arena i = some d →
      alook (h.arena ++ o.arena) i = some d := by
    intro i d hd
    rw [alook_append, hd]
  have hsplit : ∀ i (d : FibNodeData), alook (h.arena ++ o.arena) i = some d →
      alook h.arena i = some d ∨ (alook h.arena i = none ∧ alook o.arena i = some d) := by
    intro i d hd
    rw [alook_append] at hd
    cases hli : alook h.arena i with
    | none =>
      rw [hli] at hd
      simp at hd
      exact Or.inr ⟨rfl, hd⟩
    | some d2 =>
      rw [hli] at hd
      simp at hd
      exact Or.inl (by rw [hd])
  have hbo : b ≤ o.nextId := le_trans invh.bLe invo.bLe
  refine ⟨?_, ?_, ?_, ?_, ?_, ?_, ?_⟩
  · intro i n hl p hp np hnp
    rcases hsplit i n hl with hl2 | ⟨hl0, hl2⟩
    · have hpb := invh.par i n hl2 p hp
      rcases hsplit p np hnp with hnp2 | ⟨hnp0, hnp2⟩
      · exact invh.ord i n hl2 p hp np hnp2
      · have := (invo.ids p np hnp2).1
        omega
    · have hpb := invo.par i n hl2 p hp
      rcases hsplit p np hnp with hnp2 | ⟨hnp0, hnp2⟩
      · have := (invh.ids p np hnp2).2
        omega
      · exact invo.ord i n hl2 p hp np hnp2
  · exact hbo
  · intro i n hl
    rcases hsplit i n hl with hl2 | ⟨hl0, hl2⟩
    · have := invh.ids i n hl2
      exact ⟨this.1, lt_of_lt_of_le this.2 invo.bLe⟩
    · have := invo.ids i n hl2
      exact ⟨le_trans invh.bLe this.1, this.2⟩
  · intro i n hl p hp
    rcases hsplit i n hl with hl2 | ⟨hl0, hl2⟩
    · have := invh.par i n hl2 p hp
      exact ⟨this.1, lt_of_lt_of_le this.2 invo.bLe⟩
    · have := invo.par i n hl2 p hp
      exact ⟨le_trans invh.bLe this.1, this.2⟩
  · intro i n hl c hc
    rcases hsplit i n hl with hl2 | ⟨hl0, hl2⟩
    · have := invh.chi i n hl2 c hc
      exact ⟨this.1, lt_of_lt_of_le this.2 invo.bLe⟩
    · have := invo.chi i n hl2 c hc
      exact ⟨le_trans invh.bLe this.1, this.2⟩
  · intro r hr
    have hr2 := mem_dlistMergeF _ _ _ hr
    rcases hr2 with hr2 | hr2
    · have := invh.rootsB r hr2
      exact ⟨this.1, lt_of_lt_of_le this.2 invo.bLe⟩
    · have := invo.rootsB r hr2
      exact ⟨le_trans invh.bLe this.1, this.2⟩
  · intro pr hpr
    rcases mem_hashMergeInto hpr with hh | hh
    · have := invh.hashB pr hh
      exact ⟨this.1, lt_of_lt_of_le this.2 invo.bLe⟩
    · have := invo.hashB pr hh
      exact ⟨le_trans invh.bLe this.1, this.2⟩

/-! ## The heap-order invariant along every safe run (claim C2)

`safeRun` mirrors `runFrom` step for step, checking the two preconditions
the specification imposes on callers: `decrease_key` is only called with a
non-negative delta, and `delete` only targets an element whose current key
is non-negative (so that the internal `decrease_key(value, key)` is itself
a key decrease).  A step that fails in `runFrom` makes the remaining checks
vacuous. -/
def safeRun : Nat → FibHeap → List Op → Bool
  | 0, _, _ => true
  | _ + 1, _, [] => true
  | fuel + 1, h, .ins k v :: rest => safeRun fuel (h.insert k v) rest
  | fuel + 1, h, .delMin :: rest =>
    match deleteMin h with
    | .ok (_, h2) => safeRun fuel h2 rest
    | .error _ => true
  | fuel + 1, h, .decKey v d :: rest =>
    decide (0 ≤ d) &&
    match decreaseKey h v d with
    | .ok h2 => safeRun fuel h2 rest
    | .error _ => true
  | fuel + 1, h, .del v :: rest =>
    (match hashLook h.hashTable v with
     | some i => decide (0 ≤ keyD h i)
     | none => true) &&
    match h.delete v with
    | .ok (_, h2) => safeRun fuel h2 rest
    | .error _ => true
  | fuel + 1, h, .mrg sub :: rest =>
    safeRun fuel (FibHeap.new h.nextId) sub &&
    match runFrom fuel (FibHeap.new h.nextId) sub with
    | .ok o => safeRun fuel (h.merge o) rest
    | .error _ => true

theorem inv_runFrom : ∀ (fuel : Nat) {b : Nat} {h : FibHeap} (ops : List Op)
    {h2 : FibHeap}, Inv b h → safeRun fuel h ops = true →
    runFrom fuel h ops = .ok h2 → Inv b h2 := by
  intro fuel
  induction fuel with
  | zero =>
    intro b h ops h2 _ _ hok
    simp [runFrom] at hok
  | succ f ih =>
    intro b h ops h2 inv hsafe hok
    cases ops with
    | nil =>
      simp [runFrom] at hok
      rw [← hok]
      exact inv
    | cons op rest =>
      cases op with
      | ins k v =>
        simp only [runFrom] at hok
        simp only [safeRun] at hsafe
        exact ih rest (inv_insert inv k v) hsafe hok
      | delMin =>
        simp only [runFrom] at hok
        simp only [safeRun] at hsafe
        cases hdm : deleteMin h with
        | error e => rw [hdm] at hok; simp at hok
        | ok pr =>
          obtain ⟨kv, h1⟩ := pr
          rw [hdm] at hok hsafe
          exact ih rest (inv_deleteMin inv hdm) hsafe hok
      | decKey v d =>
        simp only [runFrom] at hok
        simp only [safeRun] at hsafe
        rw [Bool.and_eq_true] at hsafe
        have hd : (0 : Int) ≤ d := of_decide_eq_true hsafe.1
        cases hdec : decreaseKey h v d with
        | error e => rw [hdec] at hok; simp at hok
        | ok h1 =>
          have hsafe2 := hsafe.2
          rw [hdec] at hok hsafe2
          exact ih rest (inv_decreaseKey inv hd hdec) hsafe2 hok
      | del v =>
        simp only [runFrom] at hok
        simp only [safeRun] at hsafe
        rw [Bool.and_eq_true] at hsafe
        have hkey : ∀ i, hashLook h.hashTable v = some i → 0 ≤ keyD h i := by
          intro i hi
          have h1 := hsafe.1
          rw [hi] at h1
          exact of_decide_eq_true h1
        cases hdel : h.delete v with
        | error e => rw [hdel] at hok; simp at hok
        | ok pr =>
          obtain ⟨kv, h1⟩ := pr
          have hsafe2 := hsafe.2
          rw [hdel] at hok hsafe2
          exact ih rest (inv_delete inv hkey hdel) hsafe2 hok
      | mrg sub =>
        simp only [runFrom] at hok
        simp only [safeRun] at hsafe
        rw [Bool.and_eq_true] at hsafe
        cases hsub : runFrom f (FibHeap.new h.nextId) sub with
        | error e => rw [hsub] at hok; simp at hok
        | ok o =>
          have hsafe2 := hsafe.2
          rw [hsub] at hok hsafe2
          have invo : Inv h.nextId o := ih sub (inv_new h.nextId) hsafe.1 hsub
          exact ih rest (inv_merge inv invo) hsafe2 hok

/-- claim C2: after every sequence of public heap operations (run from the
empty heap, with the spec-mandated call conditions checked by `safeRun`:
`decrease_key` deltas are non-negative and `delete` only targets elements
with a non-negative current key), every non-root node whose parent pointer
resolves has a key no smaller than its parent's key — the heap-order
invariant on the forest, both as the proposition `PtrOrder` and as the
executable check `heapOrderB`. -/
theorem c2_heap_order (fuel : Nat) (ops : List Op) (h2 : FibHeap)
    (hsafe : safeRun fuel (FibHeap.new 0) ops = true)
    (hok : runFrom fuel (FibHeap.new 0) ops = .ok h2) :
    PtrOrder h2 ∧ heapOrderB h2 = true :=
  have inv := inv_runFrom fuel ops (inv_new 0) hsafe hok
  ⟨inv.ord, heapOrderB_of_ptrOrder inv.ord⟩

/-- A run exercising insert, delete-min, decrease-key, merge and delete. -/
def c2Ops : List Op :=
  [.ins 5 1, .ins 3 2, .ins 8 3, .ins 1 4, .delMin, .decKey 3 4, .ins 2 5,
   .mrg [.ins 0 6, .ins 7 7], .delMin, .del 2]

def c2Result : FibHeap :=
  match runFrom 64 (FibHeap.new 0) c2Ops with
  | .ok h => h
  | .error _ => FibHeap.new 0

theorem c2_heap_order_witness :
    safeRun 64 (FibHeap.new 0) c2Ops = true ∧ heapOrderB c2Result = true :=
  ⟨by decide, (c2_heap_order 64 c2Ops c2Result (by decide) (by decide)).2⟩

/-! ## Facts feeding the decrease-key characterisation (claim C6) -/

theorem markedD_setMarked_present (h : FibHeap) {i : Nat} {n : FibNodeData}
    (hn : alook h.arena i = some n) (m : Bool) :
    markedD (setMarked h i m) i = m := by
  simp [markedD, setMarked, alook_amod, hn]

theorem parentD_insertRoot (h : FibHeap) (r x : Nat) :
    parentD (insertRoot h r) x = parentD h x := by
  simp [parentD, insertRoot_arena]

theorem markedD_insertRoot (h : FibHeap) (r x : Nat) :
    markedD (insertRoot h r) x = markedD h x := by
  simp [markedD, insertRoot_arena]

/-- `cascading_cut` never re-attaches or re-marks a node that is parentless
and unmarked, and never drops a root: the recursion only clears parent
pointers and marks (in `cut`) or marks a node that still has a parent. -/
theorem cascadingCut_cleared : ∀ (fuel : Nat) {h h2 : FibHeap} {node x : Nat},
    parentD h x = none → markedD h x = false →
    cascadingCut h node fuel = .ok h2 →
    parentD h2 x = none ∧ markedD h2 x = false ∧ (x ∈ h.roots → x ∈ h2.roots) := by
  intro fuel
  induction fuel with
  | zero =>
    intro h h2 node x hp hm hok
    simp [cascadingCut] at hok
  | succ f ih =>
    intro h h2 node x hp hm hok
    simp only [cascadingCut] at hok
    cases hpn : parentD h node with
    | none =>
      rw [hpn] at hok
      simp at hok
      rw [← hok]
      exact ⟨hp, hm, fun hx => hx⟩
    | some p =>
      rw [hpn] at hok
      have hnx : node ≠ x := by
        intro he
        rw [he, hp] at hpn
        exact Option.noConfusion hpn
      have hxnode : x ≠ node := fun hh => hnx hh.symm
      have hok2 : (if markedD h node = true
          then (match cut h p node with
                | Except.error e => Except.error e
                | Except.ok h1 => cascadingCut (insertRoot h1 node) p f)
          else Except.ok (setMarked h node true)) = Except.ok h2 := hok
      by_cases hmk : markedD h node = true
      · rw [if_pos hmk] at hok2
        cases hcut : cut h p node with
        | error e => rw [hcut] at hok2; simp at hok2
        | ok h1 =>
          rw [hcut] at hok2
          obtain ⟨rid, cs2, hrc, hh1⟩ := cut_ok_elim hcut
          have hp1 : parentD h1 x = none := by
            rw [hh1, parentD_setMarked, parentD_setParent_ne _ hxnode,
              parentD_setChildren]
            exact hp
          have hm1 : markedD h1 x = false := by
            rw [hh1, markedD_setMarked_ne _ hxnode, markedD_setParent,
              markedD_setChildren]
            exact hm
          have hr1 : h1.roots = h.roots := by rw [hh1]; rfl
          have hp2 : parentD (insertRoot h1 node) x = none := by
            rw [parentD_insertRoot]
            exact hp1
          have hm2 : markedD (insertRoot h1 node) x = false := by
            rw [markedD_insertRoot]
            exact hm1
          have ht := ih hp2 hm2 hok2
          refine ⟨ht.1, ht.2.1, fun hx => ht.2.2 ?_⟩
          have hx1 : x ∈ h1.roots := by rw [hr1]; exact hx
          exact (insertRoot_roots_perm h1 node).mem_iff.mpr
            (List.mem_cons_of_mem node hx1)
      · rw [if_neg hmk] at hok2
        simp at hok2
        rw [← hok2]
        refine ⟨?_, ?_, fun hx => hx⟩
        · rw [parentD_setMarked]
          exact hp
        · rw [markedD_setMarked_ne _ hxnode]
          exact hm

/-- claim C6: `decrease_key` subtracts the delta from the node's key; a
non-root node whose new key stays at or above its parent's key triggers no
structural change (parent pointers, child lists, marks and the root list
are all unchanged), while a non-root node whose new key drops below its
parent's key is cut from its parent, inserted as a new root (ending up
parentless, unmarked and on the root list), after which cascading-cut runs
on the former parent. -/
theorem c6_decrease_key (h : FibHeap) (v delta : Int) (i p : Nat)
    (n np : FibNodeData)
    (hv : hashLook h.hashTable v = some i)
    (hn : alook h.arena i = some n)
    (hp : n.parent = some p) (hpi : p ≠ i)
    (hnp : alook h.arena p = some np) :
    (np.key ≤ n.key - delta →
      decreaseKey h v delta = .ok (setKey h i (n.key - delta)) ∧
      (∀ x, parentD (setKey h i (n.key - delta)) x = parentD h x) ∧
      (∀ x, childrenD (setKey h i (n.key - delta)) x = childrenD h x) ∧
      (∀ x, markedD (setKey h i (n.key - delta)) x = markedD h x) ∧
      (setKey h i (n.key - delta)).roots = h.roots) ∧
    (n.key - delta < np.key →
      decreaseKey h v delta =
        (match cut (setKey h i (n.key - delta)) p i with
         | .error e => .error e
         | .ok h1 =>
           cascadingCut (insertRoot h1 i) p (ccFuel (setKey h i (n.key - delta)))) ∧
      ∀ h2, decreaseKey h v delta = .ok h2 →
        parentD h2 i = none ∧ markedD h2 i = false ∧ i ∈ h2.roots) := by
  have hkey : keyD h i = n.key := by simp [keyD, hn]
  have hki : keyD (setKey h i (n.key - delta)) i = n.key - delta :=
    keyD_setKey_present h hn _
  have hkp : keyD (setKey h i (n.key - delta)) p = np.key := by
    rw [keyD_setKey_ne h hpi]
    simp [keyD, hnp]
  have hpar : parentD (setKey h i (n.key - delta)) i = some p := by
    rw [parentD_setKey]
    simp [parentD, hn, hp]
  constructor
  · intro hge
    have heq : decreaseKey h v delta = .ok (setKey h i (n.key - delta)) := by
      simp only [decreaseKey, hv]
      rw [hkey]
      simp only [decreasedNode, hpar]
      rw [hki, hkp, if_neg (not_lt.mpr hge)]
    refine ⟨heq, ?_, ?_, ?_, rfl⟩
    · exact fun x => parentD_setKey h i _ x
    · exact fun x => childrenD_setKey h i _ x
    · exact fun x => markedD_setKey h i _ x
  · intro hlt
    have heq : decreaseKey h v delta =
        (match cut (setKey h i (n.key - delta)) p i with
         | .error e => .error e
         | .ok h1 =>
           cascadingCut (insertRoot h1 i) p (ccFuel (setKey h i (n.key - delta)))) := by
      simp only [decreaseKey, hv]
      rw [hkey]
      simp only [decreasedNode, hpar]
      rw [hki, hkp, if_pos hlt]
    refine ⟨heq, ?_⟩
    intro h2 hok2
    rw [heq] at hok2
    cases hcut : cut (setKey h i (n.key - delta)) p i with
    | error e => rw [hcut] at hok2; simp at hok2
    | ok h1 =>
      rw [hcut] at hok2
      obtain ⟨rid, cs2, hrc, hh1⟩ := cut_ok_elim hcut
      have hip : i ≠ p := fun hh => hpi hh.symm
      have hni2 : alook (setChildren (setKey h i (n.key - delta)) p cs2).arena i =
          some { n with key := n.key - delta } := by
        simp [setChildren, setKey, alook_amod, hip, hn]
      have hni3 : alook (setParent (setChildren (setKey h i (n.key - delta)) p cs2)
          i none).arena i = some { { n with key := n.key - delta } with parent := none } := by
        simp [setParent, alook_amod, hni2]
      have hp1 : parentD h1 i = none := by
        rw [hh1, parentD_setMarked]
        exact parentD_setParent_present _ hni2 none
      have hm1 : markedD h1 i = false := by
        rw [hh1]
        exact markedD_setMarked_present _ hni3 false
      have hp2 : parentD (insertRoot h1 i) i = none := by
        rw [parentD_insertRoot]
        exact hp1
      have hm2 : markedD (insertRoot h1 i) i = false := by
        rw [markedD_insertRoot]
        exact hm1
      have hmem : i ∈ (insertRoot h1 i).roots :=
        (insertRoot_roots_perm h1 i).mem_iff.mpr (List.mem_cons_self i h1.roots)
      have ht := cascadingCut_cleared _ hp2 hm2 hok2
      exact ⟨ht.1, ht.2.1, ht.2.2 hmem⟩

/-- A two-node heap: root 0 (key 1, value 10) with the single child 1
(key 2, value 20). -/
def c6State : FibHeap :=
  { arena := [(0, ⟨none, [1], false, 1, 10⟩), (1, ⟨some 0, [], false, 2, 20⟩)]
    nextId := 2
    hashTable := [(10, 0), (20, 1)]
    roots := [0]
    total := 2 }

def c6Cut : FibHeap :=
  match decreaseKey c6State 20 2 with
  | .ok h => h
  | .error _ => c6State

theorem c6_decrease_key_witness :
    decreaseKey c6State 20 0 = .ok (setKey c6State 1 (2 - 0)) ∧
    (parentD c6Cut 1 = none ∧ markedD c6Cut 1 = false ∧ 1 ∈ c6Cut.roots) :=
  ⟨((c6_decrease_key c6State 20 0 1 0 ⟨some 0, [], false, 2, 20⟩
      ⟨none, [1], false, 1, 10⟩ rfl rfl rfl (by decide) rfl).1 (by decide)).1,
   ((c6_decrease_key c6State 20 2 1 0 ⟨some 0, [], false, 2, 20⟩
      ⟨none, [1], false, 1, 10⟩ rfl rfl rfl (by decide) rfl).2 (by decide)).2
     c6Cut (by decide)⟩

/-! ## Merge facts (claim C7) -/

theorem dlistMergeF_perm (m : FibHeap) : ∀ (fuel : Nat) (xs ys : List Nat),
    (dlistMergeF m fuel xs ys).Perm (xs ++ ys) := by
  intro fuel
  induction fuel with
  | zero => intro xs ys; simp [dlistMergeF]
  | succ f ih =>
    intro xs ys
    cases xs with
    | nil => simp [dlistMergeF]
    | cons x xs =>
      cases ys with
      | nil => simp [dlistMergeF]
      | cons y ys =>
        simp only [dlistMergeF]
        by_cases hk : keyD m x < keyD m y
        · rw [if_pos hk]
          exact (ih xs (y :: ys)).cons x
        · rw [if_neg hk]
          exact ((ih (x :: xs) ys).cons y).trans List.perm_middle.symm

theorem dlistMergeF_cons_head (m : FibHeap) (fuel : Nat) (x y : Nat)
    (xs ys : List Nat) :
    (dlistMergeF m (fuel + 1) (x :: xs) (y :: ys)).head? =
      some (if keyD m x < keyD m y then x else y) := by
  simp only [dlistMergeF]
  by_cases hk : keyD m x < keyD m y
  · rw [if_pos hk, if_pos hk]
    rfl
  · rw [if_neg hk, if_neg hk]
    rfl

/-- Heap A of the claim's demo, holding keys `{1, 4, 2}`. -/
def c7A : FibHeap := (((FibHeap.new 0).insert 1 11).insert 4 14).insert 2 12

/-- Heap B of the claim's demo, holding keys `{5, 0, 3}`; its value for
key `0` is `20`. -/
def c7B : FibHeap := (((FibHeap.new c7A.nextId).insert 5 25).insert 0 20).insert 3 23

/-- claim C7: `merge` splices the two root lists (the merged root list is a
permutation of the two root lists, no node is relinked — the arena is the
plain concatenation — and the front is whichever of the two fronts has the
strictly smaller key), adds the totals, and on the claim's demo heaps
(keys `{1,4,2}` and `{5,0,3}`) yields `total = 6`, six roots, and
`find_min = (0, 20)`, heap B's entry for key `0`. -/
theorem c7_merge :
    (∀ h o : FibHeap, (h.merge o).total = h.total + o.total) ∧
    (∀ h o : FibHeap, (h.merge o).arena = h.arena ++ o.arena) ∧
    (∀ h o : FibHeap, (h.merge o).roots.Perm (h.roots ++ o.roots)) ∧
    (∀ (h o : FibHeap) (x y : Nat) (xs ys : List Nat),
      h.roots = x :: xs → o.roots = y :: ys →
      (h.merge o).roots.head? =
        some (if keyD (h.merge o) x < keyD (h.merge o) y then x else y)) ∧
    ((c7A.merge c7B).total = 6 ∧ (c7A.merge c7B).roots.length = 6 ∧
      findMin (c7A.merge c7B) = .ok (0, 20)) := by
  refine ⟨fun h o => rfl, fun h o => rfl, ?_, ?_, by decide⟩
  · intro h o
    exact dlistMergeF_perm _ _ _ _
  · intro h o x y xs ys hx hy
    have hroots : (h.merge o).roots = dlistMergeF
        { arena := h.arena ++ o.arena
          nextId := o.nextId
          hashTable := hashMergeInto h.hashTable o.hashTable
          roots := []
          total := h.total + o.total }
        (h.roots.length + o.roots.length) h.roots o.roots := rfl
    rw [hroots, hx, hy]
    exact dlistMergeF_cons_head _ (xs.length + 1 + ys.length) x y xs ys

theorem c7_merge_witness :
    c7A.roots = [0, 1, 2] ∧ c7B.roots = [4, 3, 5] ∧
    (c7A.merge c7B).roots.head? =
      some (if keyD (c7A.merge c7B) 0 < keyD (c7A.merge c7B) 4 then 0 else 4) :=
  ⟨by decide, by decide,
   (c7_merge.2.2.2.1 c7A c7B 0 4 [1, 2] [3, 5] (by decide) (by decide))⟩

/-! ## One root per rank after consolidation (claim C8) -/

theorem log2F_eq : ∀ (c n : Nat), n ≤ c → log2F c n = Nat.log2 n := by
  intro c
  induction c with
  | zero =>
    intro n hn
    have h0 : n = 0 := Nat.le_zero.mp hn
    rw [h0, Nat.log2]
    simp [log2F]
  | succ c ih =>
    intro n hn
    rw [Nat.log2]
    simp only [log2F]
    by_cases h2 : 2 ≤ n
    · rw [if_pos h2, if_pos h2, ih (n / 2) (by omega)]
    · rw [if_neg h2, if_neg h2]

theorem rankD_addChild_ne (h : FibHeap) {x i : Nat} (hx : x ≠ i) (c : Nat) :
    rankD (addChild h i c) x = rankD h x := by
  simp [rankD, childrenD_addChild_ne h hx]

theorem rankD_linkPrep_ne (h : FibHeap) {x root : Nat} (hx : x ≠ root) (child : Nat) :
    rankD (linkPrep h root child) x = rankD h x := by
  unfold linkPrep
  rw [rankD_addChild_ne _ hx, rankD_setMarked, rankD_setParent]

/-- The slot invariant of `consolidate`: every occupied slot holds a node
whose rank equals the slot's index (shifted by `k`, used when peeling the
vector front in the no-duplicates argument). -/
def SlotRk (h : FibHeap) (k : Nat) (vec : List (Option Nat)) : Prop :=
  ∀ (j : Nat) (hj : j < vec.length) (x : Nat), vec.get ⟨j, hj⟩ = some x →
    rankD h x = j + k

theorem slotRk_set {h : FibHeap} {k : Nat} {vec : List (Option Nat)}
    (hs : SlotRk h k vec) {r : Nat} {o : Option Nat}
    (ho : ∀ x, o = some x → rankD h x = r + k) :
    SlotRk h k (vec.set r o) := by
  intro j hj x hx
  have hj2 : j < vec.length := by simpa using hj
  rw [List.get_eq_getElem, List.getElem_set] at hx
  by_cases hrj : r = j
  · rw [if_pos hrj] at hx
    rw [← hrj]
    exact ho x hx
  · rw [if_neg hrj] at hx
    exact hs j hj2 x (by rw [List.get_eq_getElem]; exact hx)

theorem insertByRank_ranks : ∀ (fuel : Nat) {vec : List (Option Nat)} {h : FibHeap}
    {node : Nat} {vec2 : List (Option Nat)} {h2 : FibHeap},
    SlotRk h 0 vec →
    insertByRank vec h node fuel = .ok (vec2, h2) →
    SlotRk h2 0 vec2 := by
  intro fuel
  induction fuel with
  | zero =>
    intro vec h node vec2 h2 hs hrun
    simp [insertByRank] at hrun
  | succ fuel ih =>
    intro vec h node vec2 h2 hs hrun
    simp only [insertByRank] at hrun
    split at hrun
    · rename_i hr
      split at hrun
      · simp at hrun
        obtain ⟨hv2, hh2⟩ := hrun
        rw [← hh2, ← hv2]
        refine slotRk_set hs ?_
        intro x hx
        injection hx with hx
        rw [← hx, Nat.add_zero]
      · rename_i other hget
        have hother : rankD h other = rankD h node := by
          have := hs (rankD h node) hr other hget
          simpa using this
        have hs2 : SlotRk h 0 (vec.set (rankD h node) none) :=
          slotRk_set hs (fun x hx => by simp at hx)
        have hnotin : ∀ (j : Nat) (hj : j < (vec.set (rankD h node) none).length)
            (x : Nat), (vec.set (rankD h node) none).get ⟨j, hj⟩ = some x →
            x ≠ node ∧ x ≠ other := by
          intro j hj x hx
          have hjr : rankD h x = j := by simpa using hs2 j hj x hx
          have hjne : j ≠ rankD h node := by
            intro he
            rw [List.get_eq_getElem, List.getElem_set, if_pos he.symm] at hx
            exact Option.noConfusion hx
          constructor
          · intro he
            rw [he] at hjr
            exact hjne hjr.symm
          · intro he
            rw [he, hother] at hjr
            exact hjne hjr.symm
        split at hrun
        · refine ih ?_ hrun
          intro j hj x hx
          have hne := hnotin j hj x hx
          rw [rankD_linkPrep_ne _ hne.1]
          exact hs2 j hj x hx
        · refine ih ?_ hrun
          intro j hj x hx
          have hne := hnotin j hj x hx
          rw [rankD_linkPrep_ne _ hne.2]
          exact hs2 j hj x hx
    · simp at hrun

theorem drainRoots_ranks : ∀ (rs : List Nat) {vec : List (Option Nat)}
    {h : FibHeap} {vec2 : List (Option Nat)} {h2 : FibHeap},
    SlotRk h 0 vec → drainRoots vec h rs = .ok (vec2, h2) → SlotRk h2 0 vec2 := by
  intro rs
  induction rs with
  | nil =>
    intro vec h vec2 h2 hs hrun
    simp [drainRoots] at hrun
    rw [← hrun.1, ← hrun.2]
    exact hs
  | cons r rest ih =>
    intro vec h vec2 h2 hs hrun
    simp only [drainRoots] at hrun
    split at hrun
    · simp at hrun
    · rename_i pr hstep
      obtain ⟨vecm, hm⟩ := pr
      exact ih (insertByRank_ranks _ hs hstep) hrun

theorem insertByRank_roots : ∀ (fuel : Nat) {vec : List (Option Nat)} {h : FibHeap}
    {node : Nat} {vec2 : List (Option Nat)} {h2 : FibHeap},
    insertByRank vec h node fuel = .ok (vec2, h2) → h2.roots = h.roots := by
  intro fuel
  induction fuel with
  | zero =>
    intro vec h node vec2 h2 hrun
    simp [insertByRank] at hrun
  | succ fuel ih =>
    intro vec h node vec2 h2 hrun
    simp only [insertByRank] at hrun
    split at hrun
    · split at hrun
      · simp at hrun
        rw [← hrun.2]
      · split at hrun
        · rw [ih hrun]
          rfl
        · rw [ih hrun]
          rfl
    · simp at hrun

theorem drainRoots_roots : ∀ (rs : List Nat) {vec : List (Option Nat)}
    {h : FibHeap} {vec2 : List (Option Nat)} {h2 : FibHeap},
    drainRoots vec h rs = .ok (vec2, h2) → h2.roots = h.roots := by
  intro rs
  induction rs with
  | nil =>
    intro vec h vec2 h2 hrun
    simp [drainRoots] at hrun
    rw [← hrun.2]
  | cons r rest ih =>
    intro vec h vec2 h2 hrun
    simp only [drainRoots] at hrun
    split at hrun
    · simp at hrun
    · rename_i pr hstep
      obtain ⟨vecm, hm⟩ := pr
      rw [ih hrun, insertByRank_roots _ hstep]

theorem reinsertSlots_arena : ∀ (vec : List (Option Nat)) (h : FibHeap),
    (reinsertSlots h vec).arena = h.arena := by
  intro vec
  induction vec with
  | nil => intro h; rfl
  | cons o rest ih =>
    intro h
    cases o with
    | none => exact ih h
    | some i => exact (ih (insertRoot h i)).trans (insertRoot_arena h i)

theorem reinsertSlots_roots_perm : ∀ (vec : List (Option Nat)) (h : FibHeap),
    (reinsertSlots h vec).roots.Perm (vec.filterMap id ++ h.roots) := by
  intro vec
  induction vec with
  | nil => intro h; simp [reinsertSlots]
  | cons o rest ih =>
    intro h
    cases o with
    | none => simpa [reinsertSlots] using ih h
    | some i =>
      simp only [reinsertSlots, List.filterMap_cons, id, List.cons_append]
      refine (ih (insertRoot h i)).trans ?_
      refine (List.Perm.append_left _ (insertRoot_roots_perm h i)).trans ?_
      exact List.perm_middle

theorem slotRanks_nodup (h : FibHeap) : ∀ (vec : List (Option Nat)) (k : Nat),
    SlotRk h k vec →
    ((vec.filterMap id).map (rankD h)).Nodup ∧
    ∀ r ∈ (vec.filterMap id).map (rankD h), k ≤ r := by
  intro vec
  induction vec with
  | nil => intro k _; exact ⟨List.nodup_nil, by simp⟩
  | cons o rest ih =>
    intro k hs
    have hrest : SlotRk h (k + 1) rest := by
      intro j hj x hx
      have hstep := hs (j + 1) (by simpa using Nat.succ_lt_succ hj) x hx
      omega
    cases o with
    | none =>
      have hr := ih (k + 1) hrest
      refine ⟨by simpa using hr.1, ?_⟩
      intro r hmem
      have := hr.2 r (by simpa using hmem)
      omega
    | some a =>
      have ha : rankD h a = k := by
        have := hs 0 (by simp) a rfl
        simpa using this
      have hr := ih (k + 1) hrest
      simp only [List.filterMap_cons, id, List.map_cons]
      refine ⟨List.nodup_cons.mpr ⟨?_, hr.1⟩, ?_⟩
      · intro hmem
        have := hr.2 _ hmem
        rw [ha] at this
        omega
      · intro r hmem
        rcases List.mem_cons.mp hmem with hmem | hmem
        · rw [hmem, ha]
        · have := hr.2 r hmem
          omega

theorem consolidate_ranks {h h3 : FibHeap} (hok : consolidate h = .ok h3) :
    (h3.roots.map (rankD h3)).Nodup := by
  simp only [consolidate] at hok
  cases hdrain : drainRoots (List.replicate (consolidateVecLen h.total) none)
      { h with roots := [] } h.roots with
  | error e => rw [hdrain] at hok; simp at hok
  | ok pr =>
    obtain ⟨vec2, hD⟩ := pr
    rw [hdrain] at hok
    simp at hok
    have hinit : SlotRk { h with roots := [] } 0
        (List.replicate (consolidateVecLen h.total) none) := by
      intro j hj x hx
      have : (none : Option Nat) = some x := by
        rw [← hx, List.get_eq_getElem, List.getElem_replicate]
      exact Option.noConfusion this
    have hranks : SlotRk hD 0 vec2 := drainRoots_ranks h.roots hinit hdrain
    have hroots0 : hD.roots = [] := drainRoots_roots h.roots hdrain
    have hperm : h3.roots.Perm (vec2.filterMap id) := by
      rw [← hok]
      have hpp := reinsertSlots_roots_perm vec2 hD
      rw [hroots0] at hpp
      simpa using hpp
    have harena : rankD h3 = rankD hD := by
      funext x
      rw [← hok]
      simp [rankD, childrenD, reinsertSlots_arena]
    rw [harena, (hperm.map (rankD hD)).nodup_iff]
    exact (slotRanks_nodup hD vec2 0 hranks).1

/-- claim C8 (amended): the by-rank slot array allocated by the
consolidation pass of `delete_min` has length
`floor(log2 (PRE-removal total)) + 1` — the code computes
`(self.total as f64).log2() as uint + 1` BEFORE decrementing `total`, not
`floor(log2 (post-removal total)) + 2` — and a successful `delete_min`
leaves at most one root per rank: the ranks of the resulting roots carry no
duplicate. -/
theorem c8_rank_array :
    (∀ t : Int, consolidateVecLen t = Nat.log2 t.toNat + 1) ∧
    (∀ (h : FibHeap) (kv : Int × Int) (h2 : FibHeap),
      deleteMin h = .ok (kv, h2) → (h2.roots.map (rankD h2)).Nodup) := by
  constructor
  · intro t
    unfold consolidateVecLen
    rw [log2F_eq _ _ le_rfl]
  · intro h kv h2 hok
    simp only [deleteMin] at hok
    split at hok
    · simp at hok
    · rename_i m rest hroots
      split at hok
      · simp at hok
      · rename_i h3 hcons
        split at hok
        · simp at hok
          rw [← hok.2]
          exact @consolidate_ranks _ h3 hcons
        · simp at hok

/-- A three-element heap whose `delete_min` consolidates the two survivors
into a single rank-1 tree. -/
def c8Pre : FibHeap := (((FibHeap.new 0).insert 2 1).insert 1 2).insert 3 3

def c8Post : FibHeap :=
  match deleteMin c8Pre with
  | .ok (_, h) => h
  | .error _ => c8Pre

def c8Kv : Int × Int :=
  match deleteMin c8Pre with
  | .ok (kv, _) => kv
  | .error _ => (0, 0)

theorem c8_rank_array_witness :
    (c8Post.roots.map (rankD c8Post)).Nodup :=
  c8_rank_array.2 c8Pre c8Kv c8Post (by decide)

/-! ## Duplicate payload values (claim C10) -/

theorem hashLook_hashPut (t : List (Int × Nat)) (v : Int) (i : Nat) :
    hashLook (hashPut t v i) v = some i := by
  induction t with
  | nil => simp [hashPut, hashLook]
  | cons pr rest ih =>
    obtain ⟨w, j⟩ := pr
    by_cases hw : w = v
    · simp [hashPut, hashLook, hw]
    · simp [hashPut, hashLook, hw, ih]

/-- The heap after inserting key 3 and then key 5, both with payload
value 7: the hash table binds value 7 to the newer node 1 only. -/
def c10Two : FibHeap := ((FibHeap.new 0).insert 3 7).insert 5 7

def c10Dec : FibHeap :=
  match decreaseKey c10Two 7 2 with
  | .ok h => h
  | .error _ => c10Two

def c10Del : FibHeap :=
  match c10Two.delete 7 with
  | .ok (_, h) => h
  | .error _ => c10Two

/-- claim C10: inserting a payload value already bound in the hash table
re-binds the value to the new node (general conjuncts 1-3: the table binds
the fresh id, `total` still counts both elements, the old node's arena
entry survives untouched), and `decrease_key`/`delete` then act through the
table, i.e. only on the most recently inserted element (conjunct 4 and
the concrete demo: with keys 3 and 5 both carrying value 7, the table
binds node 1; decreasing by 2 re-keys node 1 to 3 and leaves node 0's
entry intact; delete removes node 1, returning (0, 7), after which value 7
resolves to nothing although node 0 is still present, rooted, and counted).
-/
theorem c10_duplicate_value :
    (∀ (h : FibHeap) (k v : Int), hashLook (h.insert k v).hashTable v = some h.nextId) ∧
    (∀ (h : FibHeap) (k v : Int), (h.insert k v).total = h.total + 1) ∧
    (∀ (h : FibHeap) (k v : Int), (h.insert k v).arena =
      (h.nextId, ⟨none, [], false, k, v⟩) :: h.arena) ∧
    (∀ (h : FibHeap) (v delta : Int) (i : Nat), hashLook h.hashTable v = some i →
      decreaseKey h v delta = decreasedNode (setKey h i (keyD h i - delta)) i) ∧
    (hashLook c10Two.hashTable 7 = some 1 ∧
     c10Two.total = 2 ∧
     alook c10Two.arena 0 = some ⟨none, [], false, 3, 7⟩ ∧
     alook c10Two.arena 1 = some ⟨none, [], false, 5, 7⟩ ∧
     decreaseKey c10Two 7 2 = .ok c10Dec ∧
     keyD c10Dec 1 = 3 ∧
     alook c10Dec.arena 0 = some ⟨none, [], false, 3, 7⟩ ∧
     c10Two.delete 7 = .ok ((0, 7), c10Del) ∧
     alook c10Del.arena 0 = some ⟨none, [], false, 3, 7⟩ ∧
     hashLook c10Del.hashTable 7 = none ∧
     c10Del.roots = [0] ∧ c10Del.total = 1) := by
  refine ⟨?_, ?_, ?_, ?_, by decide⟩
  · intro h k v
    exact hashLook_hashPut _ _ _
  · intro h k v
    have hstep : (h.insert k v).total =
        (insertRoot (FibHeap.mk ((h.nextId, ⟨none, [], false, k, v⟩) :: h.arena)
          (h.nextId + 1) h.hashTable h.roots h.total) h.nextId).total + 1 := rfl
    rw [hstep, insertRoot_total]
  · intro h k v
    have hstep : (h.insert k v).arena =
        (insertRoot (FibHeap.mk ((h.nextId, ⟨none, [], false, k, v⟩) :: h.arena)
          (h.nextId + 1) h.hashTable h.roots h.total) h.nextId).arena := rfl
    rw [hstep, insertRoot_arena]
  · intro h v delta i hv
    simp only [decreaseKey, hv]

theorem c10_duplicate_value_witness :
    decreaseKey c10Two 7 2 = decreasedNode (setKey c10Two 1 (keyD c10Two 1 - 2)) 1 :=
  c10_duplicate_value.2.2.2.1 c10Two 7 2 1 (by decide)

/-! ## Concrete failing runs

`c1Trace` drives the heap into a corrupted forest using two elements that
share key `5`: after one `delete_min` the roots form a single tree in which
node 2 (key 5, value 20) and node 5 (key 5, value 50) are siblings; two
`decrease_key` calls cut both children of node 5, and the resulting
cascading cut of node 5 calls `remove_child`, whose key-equality comparison
removes the sibling node 2 instead of node 5.  Node 2 is left claiming a
parent while no child list contains it: it is unreachable from the roots
forever after, although it was never returned by `delete_min`/`delete`. -/
def c1Trace : List Op :=
  [.ins 0 9, .ins 1 10, .ins 5 20, .ins 2 30, .ins 3 40, .ins 5 50,
   .ins 7 60, .ins 6 70, .ins 8 80,
   .delMin, .decKey 60 3, .decKey 70 2,
   .delMin, .delMin, .delMin, .decKey 20 3]

/-- claim C1: for every sequence of public heap operations, a non-empty
heap's `find_min` returns the key/value pair whose key is minimal among the
live elements.  This run refutes it on the code: all sixteen operations
succeed, the pairs returned so far are exactly `(0,9), (1,10), (2,30),
(3,40)` — so the element with value `20` is still live — yet its current
key is `2` while `find_min` reports `(4, 60)`, and `total = 5` (the heap is
not empty).  The front root does not hold the minimum of the live
elements: key `2 < 4` is unreachable from the root list. -/
theorem c1_find_min_violated :
    (runCollect 1000 (FibHeap.new 0) [] c1Trace).map
      (fun pr => (findMin pr.1, pr.2,
        (alook pr.1.arena 2).map (fun n => (n.key, n.value)), pr.1.total)) =
    .ok (.ok (4, 60), [(0, 9), (1, 10), (2, 30), (3, 40)], some (2, 20), 5) := by
  decide

/-- The first 23 operations of the C9 run: seventeen inserts, a
`delete_min` that consolidates the sixteen remaining rank-0 roots into a
binomial tree of rank 4, four `decrease_key` cuts that carve that tree down
to the minimal Fibonacci tree of rank 4 (eight nodes), and one more
`delete_min`.  All succeed. -/
def c9TracePrefix : List Op :=
  [.ins 0 0, .ins 1 1, .ins 2 2, .ins 3 3, .ins 4 4, .ins 5 5, .ins 6 6,
   .ins 7 7, .ins 8 8, .ins 9 9, .ins 10 10, .ins 11 11, .ins 12 12,
   .ins 13 13, .ins 14 14, .ins 15 15, .ins 16 16,
   .delMin, .decKey 4 104, .decKey 7 108, .decKey 13 115, .decKey 12 115,
   .delMin]

/-- The C9 run: one further `delete_min`. -/
def c9Trace : List Op := c9TracePrefix ++ [.delMin]

/-- Whether a run succeeded. -/
def isOkB : Except Panic FibHeap → Bool
  | .ok _ => true
  | .error _ => false

/-- claim C9: every `insert_by_rank` call made during `consolidate`
satisfies `node.rank() < rank_vec.len()`, so the unguarded `rank_vec[rank]`
never goes out of bounds.  This run refutes it on the code: the prefix
succeeds and leaves fifteen live elements whose roots include a tree of
rank 4, so the final `delete_min` builds `rank_vec` with
`floor(log2 15) + 1 = 4` slots and then indexes it at rank `4` — out of
bounds (in the model, `Panic.indexOutOfBounds`; in Rust, an index panic
aborting `delete_min`). -/
theorem c9_rank_vec_overflow :
    isOkB (runFrom 1000 (FibHeap.new 0) c9TracePrefix) = true ∧
    runFrom 1000 (FibHeap.new 0) c9Trace = .error .indexOutOfBounds := by
  constructor
  · decide
  · decide

/-- claim C3: `find_min` and `delete_min` on an empty heap report an
`EmptyHeap` error as a checkable result value and do not escalate to a
fatal fault.  Counterexample: both operations execute
`panic!("Fibonacci heap is empty")` — a fatal abort, not a result the
caller can check (`Panic.panicMsg` models the Rust `panic!`). -/
theorem c3_counterexample :
    findMin (FibHeap.new 0) = .error (.panicMsg "Fibonacci heap is empty") ∧
    deleteMin (FibHeap.new 0) = .error (.panicMsg "Fibonacci heap is empty") := by
  constructor
  · rfl
  · rfl

/-- claim C3 amended: when the heap is empty (empty root list; in a
well-formed heap exactly the `total == 0` states), `find_min` and
`delete_min` panic with the message "Fibonacci heap is empty" — a fatal
fault, not an error value. -/
theorem c3_empty_heap_panics (h : FibHeap) (he : h.roots = []) :
    findMin h = .error (.panicMsg "Fibonacci heap is empty") ∧
    deleteMin h = .error (.panicMsg "Fibonacci heap is empty") := by
  constructor
  · unfold findMin
    rw [he]
  · unfold deleteMin
    rw [he]

theorem c3_empty_heap_panics_witness :
    findMin (FibHeap.new 5) = .error (.panicMsg "Fibonacci heap is empty") ∧
    deleteMin (FibHeap.new 5) = .error (.panicMsg "Fibonacci heap is empty") :=
  c3_empty_heap_panics (FibHeap.new 5) rfl

/-- A parent (id 0) with two children of equal key 5: id 1 (value 11) in
front of id 2 (value 22). -/
def c4State : FibHeap :=
  { arena := [(0, ⟨none, [1, 2], false, 1, 100⟩),
              (1, ⟨some 0, [], false, 5, 11⟩),
              (2, ⟨some 0, [], false, 5, 22⟩)]
    nextId := 3
    hashTable := [(100, 0), (11, 1), (22, 2)]
    roots := [0]
    total := 3 }

/-- claim C4: `remove_child` removes exactly the child designated by handle
identity; with duplicate keys, the node removed is the one identical to the
argument.  This refutes it on the code: asked to remove child 2,
`remove_child` removes child 1 — the first child whose KEY equals the
argument's key (`PartialEq` on `_FibNode` compares keys, fib_node.rs lines
54-58) — and child 2 stays in the child list. -/
theorem c4_remove_child_by_key :
    (removeChild c4State 0 2).map (fun pr => (pr.1, childrenD pr.2 0)) =
      .ok (1, [2]) ∧ (1 : Nat) ≠ 2 := by
  constructor
  · rfl
  · decide

/-- A two-node heap: root 0 (key 1, unmarked) with unmarked child 1
(key 2). -/
def c5State : FibHeap :=
  { arena := [(0, ⟨none, [1], false, 1, 10⟩), (1, ⟨some 0, [], false, 2, 20⟩)]
    nextId := 2
    hashTable := [(10, 0), (20, 1)]
    roots := [0]
    total := 2 }

/-- The C5 claim text as a function (second definition for refinement
comparison, following the claim's words): `cascading_cut(node)` stops when
the node has no parent; otherwise it inspects the PARENT: a marked parent
is cut from its own parent, pushed onto the root list, and the procedure
recurses on the grandparent; an unmarked parent is marked.  (The claim
leaves the marked-parent-that-is-a-root case unspecified; that branch stops
and is not exercised by the counterexample.) -/
def cascadingCutClaim (h : FibHeap) (node : Nat) : Nat → Except Panic FibHeap
  | 0 => .error .fuelExhausted
  | fuel + 1 =>
    match parentD h node with
    | none => .ok h
    | some p =>
      if markedD h p then
        match parentD h p with
        | some gp =>
          match cut h gp p with
          | .error e => .error e
          | .ok h1 => cascadingCutClaim (insertRoot h1 p) gp fuel
        | none => .ok h
      else .ok (setMarked h p true)

/-- claim C5: `cascading_cut(node)` inspects the parent's mark, cuts the
parent when marked, and marks the parent when unmarked.  Counterexample: on
`c5State` with the unmarked child 1 (whose parent 0 is unmarked), the code
marks node 1 itself and leaves the parent unmarked, whereas the claim's
procedure marks the parent 0 and leaves the node unmarked: the code
inspects and marks the NODE, not its parent (fibonacci_heap.rs lines
152-167). -/
theorem c5_counterexample :
    cascadingCut c5State 1 5 = .ok (setMarked c5State 1 true) ∧
    cascadingCutClaim c5State 1 5 = .ok (setMarked c5State 0 true) ∧
    cascadingCut c5State 1 5 ≠ cascadingCutClaim c5State 1 5 := by
  refine ⟨by rfl, by rfl, by decide⟩

/-- claim C5 (amended): `cascading_cut(node)` stops when the node has no
parent; otherwise it inspects the NODE's own mark (not the parent's): when
the node is marked it is cut from its parent, pushed onto the root list,
and the procedure recurses on the parent; when the node is unmarked, the
node itself is marked and the procedure stops. -/
theorem c5_cascading_cut_cases (h : FibHeap) (node : Nat) (fuel : Nat) :
    (parentD h node = none → cascadingCut h node (fuel + 1) = .ok h) ∧
    (∀ p, parentD h node = some p → markedD h node = false →
      cascadingCut h node (fuel + 1) = .ok (setMarked h node true)) ∧
    (∀ p, parentD h node = some p → markedD h node = true →
      cascadingCut h node (fuel + 1) =
        match cut h p node with
        | .error e => .error e
        | .ok h1 => cascadingCut (insertRoot h1 node) p fuel) := by
  refine ⟨?_, ?_, ?_⟩
  · intro hp
    simp [cascadingCut, hp]
  · intro p hp hm
    simp [cascadingCut, hp, hm]
  · intro p hp hm
    simp [cascadingCut, hp, hm]

theorem c5_cascading_cut_cases_witness :
    cascadingCut c5State 1 5 = .ok (setMarked c5State 1 true) ∧
    cascadingCut c5State 0 5 = .ok c5State ∧
    cascadingCut (setMarked c5State 1 true) 1 5 =
      match cut (setMarked c5State 1 true) 0 1 with
      | .error e => .error e
      | .ok h1 => cascadingCut (insertRoot h1 1) 0 4 :=
  ⟨(c5_cascading_cut_cases c5State 1 4).2.1 0 (by decide) (by decide),
   (c5_cascading_cut_cases c5State 0 4).1 (by decide),
   (c5_cascading_cut_cases (setMarked c5State 1 true) 1 4).2.2 0
     (by decide) (by decide)⟩

/-- claim C8: the slot array has length `floor(log2 total) + 2` for the
post-removal total.  Counterexample: deleting from a three-element heap,
the code sizes the array from the PRE-removal total as
`floor(log2 3) + 1 = 2` slots, while the claim prescribes
`floor(log2 2) + 2 = 3`. -/
theorem c8_counterexample :
    consolidateVecLen 3 = 2 ∧ Nat.log2 2 + 2 = 3 ∧
    consolidateVecLen 3 ≠ Nat.log2 2 + 2 := by
  have h2 : Nat.log2 2 = 1 := by
    rw [Nat.log2, if_pos (by norm_num), Nat.log2, if_neg (by norm_num)]
  refine ⟨by decide, by rw [h2], by rw [h2]; decide⟩

end RustHeaps
